import Mathlib

/-!
# Verification of the anote synchronization core

Shallow embedding of the write-coalescing, persistence, reorder, folder-delete
and bridge-resolution logic of the anote repository
(`src/render.js`, `src/state.js`, `src/main.js`, `raycast/src/lib/bridge.ts`),
with theorems settling the specification's claims about it.

Layout: all definitions first (the embedding), then the theorems.
-/

namespace Anote

/-! ## Association-list model of JS `Map`

The module-level `Map` objects of `render.js` (`lastSaved`, `saveTimeouts`,
`notesById`, `strippedPreviewCache`, ...) are modelled as association lists in
insertion order.  `mget` models `Map.prototype.get`, `mset` models
`Map.prototype.set` (overwrite the existing binding in place, otherwise
append), `mdel` models `Map.prototype.delete`. -/

def mget {α : Type} : List (String × α) → String → Option α
  | [], _ => none
  | (k', v) :: rest, k => if k' = k then some v else mget rest k

def mset {α : Type} : List (String × α) → String → α → List (String × α)
  | [], k, v => [(k, v)]
  | (k', v') :: rest, k, v =>
    if k' = k then (k, v) :: rest else (k', v') :: mset rest k v

def mdel {α : Type} : List (String × α) → String → List (String × α)
  | [], _ => []
  | (k', v) :: rest, k => if k' = k then mdel rest k else (k', v) :: mdel rest k

/-! ## `persistNote` — the Write Coalescer's dedupe (src/render.js 1408–1420)

```js
const saveTimeouts = new Map();
const lastSaved = new Map();

function persistNote(note) {
  const key = note.id;
  const prev = lastSaved.get(key);
  // Include updatedAt in dedupe so timestamp-only updates still persist to SQLite.
  if (prev && prev.title === note.title && prev.body === note.body
           && prev.updatedAt === note.updatedAt) return;
  lastSaved.set(key, { title: note.title, body: note.body, updatedAt: note.updatedAt });
  invoke('update_note', { id: note.id, title: note.title, body: note.body,
                          updatedAt: note.updatedAt });
}
```
-/

/-- The note fields `persistNote` compares and sends: `{title, body, updatedAt}`.
`updatedAt` is a `Date.now()` millisecond stamp, modelled as `Nat`. -/
structure NoteFields where
  title : String
  body : String
  updatedAt : Nat
deriving DecidableEq, Repr

/-- State of the write path: the module-level `lastSaved` map plus the ordered
log of `invoke('update_note', ...)` calls issued to the canonical store. -/
structure PersistState where
  lastSaved : List (String × NoteFields)
  writes : List (String × NoteFields)
deriving DecidableEq, Repr

/-- `persistNote(note)` from `render.js`: skip when `lastSaved` holds the very
same title, body and updatedAt; otherwise record the values in `lastSaved` and
issue the store write. -/
def persistNote (s : PersistState) (id : String) (n : NoteFields) : PersistState :=
  match mget s.lastSaved id with
  | some prev =>
    if prev.title = n.title ∧ prev.body = n.body ∧ prev.updatedAt = n.updatedAt then s
    else { lastSaved := mset s.lastSaved id n, writes := s.writes ++ [(id, n)] }
  | none => { lastSaved := mset s.lastSaved id n, writes := s.writes ++ [(id, n)] }

/-! ## The per-note debounce (src/render.js 1422–1461)

```js
function scheduleSave(note) {
  const existing = saveTimeouts.get(note.id);
  if (existing) clearTimeout(existing);
  saveTimeouts.set(note.id, setTimeout(() => {
    saveTimeouts.delete(note.id);
    updateNoteCard(note);
    persistNote(note);
  }, 300));
}

function updateNoteTitle(id, value) {
  const note = state.notesById.get(id);
  if (note) { note.title = value; note.updatedAt = Date.now(); scheduleSave(note); }
}

function updateNoteBody(id, value) {
  const note = state.notesById.get(id);
  if (note) { note.body = value; note.preview = value.slice(0, 200);
              note.updatedAt = Date.now(); scheduleSave(note); }
}
```

The claim is per note, so the state tracks one note's cached object, its
pending `saveTimeouts` timer (as the absolute time at which the timer will
fire: `setTimeout(cb, 300)` at time `now` fires at `now + 300` unless the
next `scheduleSave` clears it), and the ordered log of `persistNote(note)`
invocations made by expired timers.  The single-threaded event-loop semantics
is captured by a validity predicate over timed traces. -/

/-- The cached note object mutated in place by the edit handlers. -/
structure NoteObj where
  title : String
  preview : String
  body : String
  updatedAt : Nat
deriving DecidableEq, Repr

/-- Debounce state for one note. `deadline` is the pending timer's absolute
fire time (`none` when no timer is pending); `log` records, in order, the
snapshots of the note passed to `persistNote` by expired timers. -/
structure CoState where
  note : NoteObj
  deadline : Option Nat
  log : List NoteObj
deriving DecidableEq, Repr

/-- Which field an edit event writes. -/
inductive EditField
  | title
  | body
deriving DecidableEq, Repr

/-- A timed edit: `updateNoteTitle`/`updateNoteBody` called at time `time`
with the new string `value`. -/
structure EditEv where
  field : EditField
  value : String
  time : Nat
deriving DecidableEq, Repr

/-- `updateNoteTitle(id, value)` at time `now`, including the `scheduleSave`
it performs (clear any pending timer, arm one for `now + 300`). -/
def updateNoteTitle (s : CoState) (value : String) (now : Nat) : CoState :=
  { s with note := { s.note with title := value, updatedAt := now },
           deadline := some (now + 300) }

/-- `updateNoteBody(id, value)` at time `now`: body, 200-character preview and
timestamp are written, then `scheduleSave`. -/
def updateNoteBody (s : CoState) (value : String) (now : Nat) : CoState :=
  { s with note := { s.note with body := value, preview := value.take 200, updatedAt := now },
           deadline := some (now + 300) }

/-- An event observed by the debounce: an edit, or the pending timer firing at
time `t` (the `setTimeout` callback: drop the `saveTimeouts` entry and call
`persistNote(note)` on the shared note object). -/
inductive CoEv
  | edit (e : EditEv)
  | fire (t : Nat)
deriving DecidableEq, Repr

def CoEv.time : CoEv → Nat
  | .edit e => e.time
  | .fire t => t

def coStep (s : CoState) : CoEv → CoState
  | .edit e =>
    match e.field with
    | .title => updateNoteTitle s e.value e.time
    | .body => updateNoteBody s e.value e.time
  | .fire _ => { s with deadline := none, log := s.log ++ [s.note] }

def coRun (s : CoState) (evs : List CoEv) : CoState := evs.foldl coStep s

/-- Event-loop validity of a timed trace starting at `clock`:
times are nondecreasing; no event can be observed strictly after a pending
deadline (the timer would have fired first); a `fire` happens exactly at the
pending deadline; and the trace ends quiescent (no timer left pending,
i.e. the trace is complete — JS timers that are never cleared do fire). -/
def coValid : CoState → Nat → List CoEv → Bool
  | s, _, [] => s.deadline == none
  | s, clock, e :: rest =>
    decide (clock ≤ e.time) &&
    (match s.deadline with
     | some d => decide (e.time ≤ d)
     | none => true) &&
    (match e with
     | .fire t => s.deadline == some t
     | .edit _ => true) &&
    coValid (coStep s e) e.time rest

/-- The edit events of a trace, in order. -/
def editsOf : List CoEv → List EditEv
  | [] => []
  | .edit e :: rest => e :: editsOf rest
  | .fire _ :: rest => editsOf rest

/-- One debounce quiet period: each edit lands strictly less than 300 ms after
the previous one (so it resets the timer before the timer can fire). -/
def withinQuiet : List EditEv → Bool
  | [] => true
  | [_] => true
  | e₁ :: e₂ :: rest => decide (e₂.time < e₁.time + 300) && withinQuiet (e₂ :: rest)

/-- The note value after a sequence of edits (pure image of the two handlers). -/
def applyEdit (n : NoteObj) (e : EditEv) : NoteObj :=
  match e.field with
  | .title => { n with title := e.value, updatedAt := e.time }
  | .body => { n with body := e.value, preview := e.value.take 200, updatedAt := e.time }

def applyEdits (n : NoteObj) (es : List EditEv) : NoteObj := es.foldl applyEdit n

/-- The last value written to field `f` by `es`, defaulting to `dflt`. -/
def lastValue (f : EditField) (dflt : String) (es : List EditEv) : String :=
  es.foldl (fun acc e => if e.field = f then e.value else acc) dflt

/-! ## `flushPendingSaves` (src/render.js 1432–1442)

```js
function flushPendingSaves() {
  for (const [id, timeout] of saveTimeouts) {
    clearTimeout(timeout);
    const note = state.notesById.get(id);
    if (note) {
      updateNoteCard(note);
      persistNote(note);
    }
  }
  saveTimeouts.clear();
}
```

`saveTimeouts` is modelled by its key list (the timer handles only feed
`clearTimeout`); `calls` is the ordered log of `persistNote(note)` invocations
the flush issues, and `ps` is the real persist state those invocations act on
(`lastSaved` plus the issued `invoke('update_note', ...)` store writes).
`invoke` returns a promise that nothing in `flushPendingSaves` awaits; a
promise can only settle in a later microtask, after the synchronous function
has returned, so settlement is a separate event (`settleWrite` below) and
`settledWrites` counts how many of `ps.writes` have settled so far.
`updateNoteCard` only touches the DOM and is omitted. -/

structure FlushState where
  saveTimeouts : List String
  notesById : List (String × NoteObj)
  calls : List (String × NoteObj)
  ps : PersistState
  settledWrites : Nat
deriving DecidableEq, Repr

def flushStep (acc : FlushState) (id : String) : FlushState :=
  match mget acc.notesById id with
  | some note =>
    { acc with calls := acc.calls ++ [(id, note)],
               ps := persistNote acc.ps id ⟨note.title, note.body, note.updatedAt⟩ }
  | none => acc

def flushPendingSaves (s : FlushState) : FlushState :=
  let s1 := s.saveTimeouts.foldl flushStep s
  { s1 with saveTimeouts := [] }

/-- The settlement (success or failure) of the earliest outstanding store
write's promise.  This runs in a later microtask of the event loop — never
inside the synchronous `flushPendingSaves`, which does not await the
promises `invoke` returns. -/
def settleWrite (s : FlushState) : FlushState :=
  { s with settledWrites := min (s.settledWrites + 1) s.ps.writes.length }

/-! ## The Conflict Guard (spec §4.4) and reconciliation

`main.js` does `import { render, initExternalSyncWatcher } from './render.js'`
and calls `initExternalSyncWatcher()` after the first paint, but the
definition of `initExternalSyncWatcher` — the Sync Watcher and with it the
Conflict Guard that inspects persist results — is absent from the available
`render.js` source.  The two definitions below are therefore modelled from
the spec; `persistNote` above is the real code they cooperate with. -/

/-- Outcome of a persist call as classified by the store (spec §6/§7). -/
inductive PersistResult
  | ok
  | conflict
  | internalError
deriving DecidableEq, Repr

/-- Sync-core state around one note: the Write Coalescer's persist state, the
note's value in the Entity Cache, whether a coalescer timer is pending for
it, and the Sync Watcher's force flag. -/
structure GuardState where
  ps : PersistState
  cacheNote : NoteFields
  pendingTimer : Bool
  forceReconcile : Bool
deriving DecidableEq, Repr

/-- Modelled from the spec: the Conflict Guard of §4.4, whose `render.js`
implementation (part of the missing `initExternalSyncWatcher` code) is not in
the available source.  "On conflict: drop the losing write (do not retry it)
and force the Sync Watcher into an immediate Reconciling cycle": nothing is
re-sent, no timer is armed, only the force flag is raised.  Every other
result leaves the guard state untouched (transport/validation errors are left
to the next natural edit, spec §4.2). -/
def handlePersistResult (g : GuardState) (r : PersistResult) : GuardState :=
  match r with
  | .conflict => { g with forceReconcile := true }
  | _ => g

/-- Modelled from the spec: the Reconciling step of §4.3 as it affects one
note — the cached value is replaced by the canonical store's value and the
force flag is consumed. -/
def reconcileNote (g : GuardState) (canonical : NoteFields) : GuardState :=
  { g with cacheNote := canonical, forceReconcile := false }

/-! ## Manual reorder (src/render.js 573–593, 1546–1570)

```js
function getSortedFolderNotes(folderId) {
  const notes = (state.notesByFolderId.get(folderId) || []).slice();
  const sortBy = state.sortMode;
  const pinnedSort = (a, b) => (b.pinned - a.pinned);
  ...
  // 'manual' or default
  return notes.sort((a, b) => pinnedSort(a, b) || (a.sortOrder - b.sortOrder));
}

function applyManualReorder(orderedNotes) {
  orderedNotes.forEach((n, i) => { n.sortOrder = i; });
  ...
  invoke('reorder_notes', { updates: orderedNotes.map(n => [n.id, n.sortOrder]) });
}

function reorderByTarget(dragId, targetId, placement = 'above') {
  if (!dragId || dragId === targetId) return;
  const draggedNote = state.notesById.get(dragId);
  const targetNote = state.notesById.get(targetId);
  if (!draggedNote || !targetNote) return;
  if (!!draggedNote.pinned !== !!targetNote.pinned) return;
  const isPinned = !!draggedNote.pinned;
  const group = getSortedFolderNotes(draggedNote.folderId).filter(n => !!n.pinned === isPinned);
  const filtered = group.filter(n => n.id !== dragId);
  let targetIdx = filtered.findIndex(n => n.id === targetId);
  if (targetIdx === -1) return;
  if (placement === 'below') targetIdx += 1;
  filtered.splice(targetIdx, 0, draggedNote);
  applyManualReorder(filtered);
}
```

Modelling notes:
* `state.notesByFolderId.get(folderId)` is the per-folder index which
  `rebuildIndexes` (state.js) builds as the in-order sublist of `data.notes`
  with that `folderId`; it is modelled by that filter.
* `Array.prototype.sort` is stable, modelled by `List.mergeSort`.
* Manual sort mode (the mode under which notes are dragged) is embedded.
* `applyManualReorder` mutates the shared note objects; with unique note ids
  this is the rewrite, by id, of every cached note occurring in the list.
* `state.notesById.get` is modelled by first-match lookup in `data.notes`
  (`rebuildIndexes` makes the two agree).  The trailing
  `invoke('reorder_notes', ...)` only mirrors the new orders to the store. -/

/-- A cached note as relevant to reordering.  `pinned` is the JS numeric flag
(`n.pinned || 0`). -/
structure NoteR where
  id : String
  folderId : String
  pinned : Nat
  sortOrder : Nat
  updatedAt : Nat
  createdAt : Nat
  title : String
deriving DecidableEq, Repr

/-- `a` does not sort after `b` under the manual comparator
`(b.pinned - a.pinned) || (a.sortOrder - b.sortOrder)`: pinned first, then
ascending manual order. -/
def manualLE (a b : NoteR) : Bool :=
  decide (b.pinned < a.pinned) ||
    (decide (a.pinned = b.pinned) && decide (a.sortOrder ≤ b.sortOrder))

/-- `getSortedFolderNotes(folderId)` in manual sort mode. -/
def getSortedFolderNotes (notes : List NoteR) (folderId : String) : List NoteR :=
  (notes.filter (fun n => n.folderId == folderId)).mergeSort manualLE

/-- Index of `i` in a key list (JS `Array.prototype.findIndex` on ids). -/
def idxOfId : List String → String → Option Nat
  | [], _ => none
  | k :: rest, i => if k = i then some 0 else (idxOfId rest i).map (· + 1)

/-- `applyManualReorder(orderedNotes)`: the i-th note of the group list gets
`sortOrder = i`; every cached note not in the list is untouched. -/
def applyManualReorder (notes : List NoteR) (ordered : List NoteR) : List NoteR :=
  notes.map (fun n =>
    match idxOfId (ordered.map NoteR.id) n.id with
    | some i => { n with sortOrder := i }
    | none => n)

inductive Placement
  | above
  | below
deriving DecidableEq, Repr

/-- `reorderByTarget(dragId, targetId, placement)`. -/
def reorderByTarget (notes : List NoteR) (dragId targetId : String) (pl : Placement) :
    List NoteR :=
  if dragId = "" ∨ dragId = targetId then notes
  else
    match notes.find? (fun n => n.id == dragId), notes.find? (fun n => n.id == targetId) with
    | some draggedNote, some targetNote =>
      if (draggedNote.pinned != 0) ≠ (targetNote.pinned != 0) then notes
      else
        let isPinned := draggedNote.pinned != 0
        let group := (getSortedFolderNotes notes draggedNote.folderId).filter
          (fun n => (n.pinned != 0) == isPinned)
        let filtered := group.filter (fun n => n.id != dragId)
        match filtered.findIdx? (fun n => n.id == targetId) with
        | none => notes
        | some targetIdx =>
          let targetIdx := if pl = .below then targetIdx + 1 else targetIdx
          applyManualReorder notes (filtered.insertIdx targetIdx draggedNote)
    | _, _ => notes

/-! ## Cascading folder delete (src/render.js 21–23, 1209–1234, 1268–1276)

```js
function getChildFolders(parentId) {
  return state.data.folders.filter(f => f.parentId === parentId);
}

function getDescendantFolderIds(parentId) {
  const descendants = [];
  const children = getChildFolders(parentId);
  for (const child of children) {
    descendants.push(child.id);
    descendants.push(...getDescendantFolderIds(child.id));
  }
  return descendants;
}

async function deleteFolder(id) {
  closeFolderMenus();
  const folderIdsToDelete = getDescendantFolderIds(id);
  folderIdsToDelete.push(id);
  const folderIdsSet = new Set(folderIdsToDelete);
  for (const folderId of folderIdsToDelete) {
    const folderNotes = state.notesByFolderId.get(folderId) || [];
    for (const n of folderNotes) { state.notesById.delete(n.id); }
    state.foldersById.delete(folderId);
    state.notesByFolderId.delete(folderId);
    state.notesCountByFolder.delete(folderId);
    state.expandedFolders.delete(folderId);
  }
  state.data.folders = state.data.folders.filter(f => !folderIdsSet.has(f.id));
  state.data.notes = state.data.notes.filter(n => !folderIdsSet.has(n.folderId));
  if (folderIdsSet.has(state.activeFolderId)) {
    state.activeFolderId = null;
    state.activeNoteId = null;
  }
  render();
  await invoke('delete_folder', { id });
}
```

The JS recursion of `getDescendantFolderIds` terminates because the folder
graph is a forest; the embedding adds explicit fuel, and `deleteFolder` runs
it with fuel `folders.length`, which the theorems show suffices for every
acyclic folder graph (`closeFolderMenus`, `render` and the trailing store
call are UI/store mirroring and are omitted). -/

structure Folder where
  id : String
  name : String
  parentId : Option String
  createdAt : Nat
deriving DecidableEq, Repr

/-- The Entity Cache: `state.data` plus the derived indexes touched by
`deleteFolder`, and the active selection. -/
structure CacheState where
  folders : List Folder
  notes : List NoteR
  foldersById : List (String × Folder)
  notesById : List (String × NoteR)
  notesByFolderId : List (String × List NoteR)
  notesCountByFolder : List (String × Nat)
  expandedFolders : List String
  activeFolderId : Option String
  activeNoteId : Option String
deriving DecidableEq, Repr

def getChildFolders (folders : List Folder) (parentId : String) : List Folder :=
  folders.filter (fun f => f.parentId == some parentId)

def getDescendantFolderIds (folders : List Folder) : Nat → String → List String
  | 0, _ => []
  | fuel + 1, parentId =>
    (getChildFolders folders parentId).flatMap
      (fun child => child.id :: getDescendantFolderIds folders fuel child.id)

/-- The body of `deleteFolder`'s loop for one folder id. -/
def deleteFolderStep (acc : CacheState) (folderId : String) : CacheState :=
  let folderNotes := (mget acc.notesByFolderId folderId).getD []
  { acc with
    notesById := folderNotes.foldl (fun m n => mdel m n.id) acc.notesById,
    foldersById := mdel acc.foldersById folderId,
    notesByFolderId := mdel acc.notesByFolderId folderId,
    notesCountByFolder := mdel acc.notesCountByFolder folderId,
    expandedFolders := acc.expandedFolders.filter (fun x => x != folderId) }

def deleteFolder (s : CacheState) (id : String) : CacheState :=
  let folderIdsToDelete := getDescendantFolderIds s.folders s.folders.length id ++ [id]
  let s1 := folderIdsToDelete.foldl deleteFolderStep s
  let s2 := { s1 with
    folders := s1.folders.filter (fun f => !(folderIdsToDelete.contains f.id)),
    notes := s1.notes.filter (fun n => !(folderIdsToDelete.contains n.folderId)) }
  match s2.activeFolderId with
  | some a =>
    if folderIdsToDelete.contains a then
      { s2 with activeFolderId := none, activeNoteId := none }
    else s2
  | none => s2

/-- Specification-side notion for the descendant theorems: `c` is a
parent-link chain in `folders` descending from `root` to the folder with id
`x` (the first element is a child of `root`, each element a child of the
previous one, the last has id `x`). -/
def chainOk (folders : List Folder) : String → List Folder → String → Prop
  | _, [], _ => False
  | root, f :: rest, x =>
    f ∈ folders ∧ f.parentId = some root ∧
      ((rest = [] ∧ f.id = x) ∨ chainOk folders f.id rest x)

/-- `x` is a strict descendant folder (child, grandchild, ...) of `root`. -/
def IsDescendant (folders : List Folder) (root x : String) : Prop :=
  ∃ c, chainOk folders root c x

/-- `fid` is in the deleted subtree of a `deleteFolder(root)` call. -/
def InSubtree (folders : List Folder) (root fid : String) : Prop :=
  fid = root ∨ IsDescendant folders root fid

/-! ## Bridge command resolution (raycast/src/lib/bridge.ts 123–323)

`resolveBridgeCommand` picks how to reach the external writer, first existing
candidate wins: the `ANOTE_BRIDGE_BIN` environment override, the
`bridgeBinaryPath` preference, three well-known installed-app bridge
locations, the installed app binary in `--bridge-cli` mode, a
`src-tauri/target/debug/anote_bridge` build under a repo root discovered by
walking up from seed directories, and finally `cargo run` against a
discovered `src-tauri/Cargo.toml`; if even that is missing it throws.

The filesystem and process environment are inputs: `pathExists` models
`existsSync`, `parentDirs` models `getParentDirs` (the chain of
`path.resolve`/`path.dirname` ancestors of a seed, ending at the root).
Preferences arrive trimmed, with the empty string mapped to absence
(`readBridgePreferences`), and `path.resolve` of an absolute path is the
identity, so the preference fields hold resolved paths.  `path.join` is
modelled by `/`-concatenation of its (absolute head, relative tail)
arguments. -/

structure BridgeEnv where
  anoteBridgeBin : Option String
  bridgeBinaryPath : Option String
  bridgeRepoRoot : Option String
  homedir : String
  cwd : String
  dirname : String
  envPwd : Option String
  pathExists : String → Bool
  parentDirs : String → List String

/-- Which candidate class a resolved command came from (`BridgeCommandSource`,
also the timeout class). -/
inductive BridgeSource
  | env
  | prefBin
  | appBridge
  | appMainCli
  | localDebug
  | cargo
deriving DecidableEq, Repr

structure ResolvedBridgeCommand where
  cmd : String
  args : List String
  source : BridgeSource
deriving DecidableEq, Repr

def BRIDGE_LOG_PATH (e : BridgeEnv) : String :=
  e.homedir ++ "/.anote/raycast-bridge.log"

/-- JS `Set` insertion order: keep the first occurrence of each element. -/
def dedupFirst (l : List String) : List String :=
  l.foldl (fun acc x => if x ∈ acc then acc else acc ++ [x]) []

/-- `discoverRepoRoots()`: walk up from every seed directory, collecting (in
first-seen order) each ancestor that contains `src-tauri/Cargo.toml`. -/
def discoverRepoRoots (e : BridgeEnv) : List String :=
  let preferenceRepoRoot := (e.bridgeRepoRoot.getD "")
  let preferenceRepoSrcTauri :=
    if preferenceRepoRoot ≠ "" then preferenceRepoRoot ++ "/src-tauri" else ""
  let seeds := ([e.cwd, e.dirname, e.envPwd.getD ""].filter (fun s => s != ""))
    ++ (if preferenceRepoRoot ≠ "" then [preferenceRepoRoot] else [])
    ++ (if preferenceRepoSrcTauri ≠ "" then [preferenceRepoSrcTauri] else [])
  dedupFirst (seeds.flatMap (fun seed =>
    (e.parentDirs seed).filter (fun dir => e.pathExists (dir ++ "/src-tauri/Cargo.toml"))))

def appBridgeCandidates (e : BridgeEnv) : List String :=
  ["/Applications/anote.app/Contents/MacOS/anote_bridge",
   e.homedir ++ "/Applications/anote.app/Contents/MacOS/anote_bridge",
   e.homedir ++ "/.anote/bin/anote_bridge"]

def appMainCandidates (e : BridgeEnv) : List String :=
  ["/Applications/anote.app/Contents/MacOS/anote",
   e.homedir ++ "/Applications/anote.app/Contents/MacOS/anote"]

def localBinCandidates (e : BridgeEnv) : List String :=
  (discoverRepoRoots e).map (fun root => root ++ "/src-tauri/target/debug/anote_bridge")

def cargoManifestCandidates (e : BridgeEnv) : List String :=
  (discoverRepoRoots e).map (fun root => root ++ "/src-tauri/Cargo.toml")

/-- `HOME_CARGO_BIN` if it exists, else `cargo` from `PATH`. -/
def cargoCmd (e : BridgeEnv) : String :=
  if e.pathExists (e.homedir ++ "/.cargo/bin/cargo") then e.homedir ++ "/.cargo/bin/cargo"
  else "cargo"

def bridgeResolutionErrorMsg (e : BridgeEnv) : String :=
  "bridge binary not resolved; install/update anote app or set " ++
    "ANOTE_BRIDGE_BIN/bridgeBinaryPath. See " ++ BRIDGE_LOG_PATH e

/-- `resolveBridgeCommand()`: the candidate cascade.  `Option.filter` models
the `x && existsSync(x)` guards (the environment override is absent when the
variable is unset or empty, both falsy). -/
def resolveBridgeCommand (e : BridgeEnv) : Except String ResolvedBridgeCommand :=
  match e.anoteBridgeBin.filter e.pathExists with
  | some p => .ok ⟨p, [], .env⟩
  | none =>
  match e.bridgeBinaryPath.filter e.pathExists with
  | some p => .ok ⟨p, [], .prefBin⟩
  | none =>
  match (appBridgeCandidates e).find? e.pathExists with
  | some p => .ok ⟨p, [], .appBridge⟩
  | none =>
  match (appMainCandidates e).find? e.pathExists with
  | some p => .ok ⟨p, ["--bridge-cli"], .appMainCli⟩
  | none =>
  match (localBinCandidates e).find? e.pathExists with
  | some p => .ok ⟨p, [], .localDebug⟩
  | none =>
  match (cargoManifestCandidates e).find? e.pathExists with
  | some manifest =>
    .ok ⟨cargoCmd e, ["run", "--quiet", "--manifest-path", manifest, "--bin", "anote_bridge"],
         .cargo⟩
  | none => .error (bridgeResolutionErrorMsg e)

/-- Availability of each candidate class, in the cascade's order. -/
def availList (e : BridgeEnv) : List Bool :=
  [(e.anoteBridgeBin.filter e.pathExists).isSome,
   (e.bridgeBinaryPath.filter e.pathExists).isSome,
   ((appBridgeCandidates e).find? e.pathExists).isSome,
   ((appMainCandidates e).find? e.pathExists).isSome,
   ((localBinCandidates e).find? e.pathExists).isSome,
   ((cargoManifestCandidates e).find? e.pathExists).isSome]

def sourceIdx : BridgeSource → Nat
  | .env => 0
  | .prefBin => 1
  | .appBridge => 2
  | .appMainCli => 3
  | .localDebug => 4
  | .cargo => 5

/-! ## Memoized preview stripping (src/render.js 104–129)

```js
const strippedPreviewCache = new Map();

function getStrippedPreview(raw) {
  if (!raw) return '';
  let result = strippedPreviewCache.get(raw);
  if (result !== undefined) return result;
  if (strippedPreviewCache.size >= 2000) strippedPreviewCache.clear();
  result = stripMarkdown(raw);
  strippedPreviewCache.set(raw, result);
  return result;
}
```

`stripMarkdown` (render.js 107–119) is a pure chain of string replacements;
the memoization layer is independent of which pure function it caches, so it
is embedded parametrically in `stripMarkdown`.  The function returns its
result together with the updated module-level cache. -/

def getStrippedPreview (stripMarkdown : String → String)
    (cache : List (String × String)) (raw : String) : String × List (String × String) :=
  if raw = "" then ("", cache)
  else
    match mget cache raw with
    | some result => (result, cache)
    | none =>
      let cache := if 2000 ≤ cache.length then [] else cache
      (stripMarkdown raw, mset cache raw (stripMarkdown raw))

/-- The spec-side description to compare against: empty input gives the empty
string, any other input gives exactly `stripMarkdown` of it. -/
def strippedPreviewSpec (stripMarkdown : String → String) (raw : String) : String :=
  if raw = "" then "" else stripMarkdown raw

/-- The cache states `strippedPreviewCache` can actually be in: those
generated from the empty module-level map by `getStrippedPreview` calls. -/
inductive ReachableCache (stripMarkdown : String → String) :
    List (String × String) → Prop
  | empty : ReachableCache stripMarkdown []
  | step (cache : List (String × String)) (raw : String) :
      ReachableCache stripMarkdown cache →
      ReachableCache stripMarkdown (getStrippedPreview stripMarkdown cache raw).2

/-- A concrete stand-in for `stripMarkdown` used by witnesses. -/
def demoStrip (s : String) : String := s ++ "|stripped"

/-! ## Auxiliary predicates used by the theorems -/

/-- Cache well-formedness: every binding of `strippedPreviewCache` stores
`stripMarkdown` of its key. -/
def CacheWF (stripMarkdown : String → String) (cache : List (String × String)) : Prop :=
  ∀ kv ∈ cache, kv.2 = stripMarkdown kv.1

/-- The pinned/unpinned group of `fid` a note belongs to (same folder, same
`!!pinned` flag as the dragged note). -/
def inGroup (fid : String) (pinnedFlag : Bool) (n : NoteR) : Bool :=
  (n.folderId == fid) && ((n.pinned != 0) == pinnedFlag)

/-- Index consistency of the Entity Cache as (re)established by
`rebuildIndexes` (state.js 34–62) and maintained by the incremental mutation
sites: every `notesByFolderId` entry is the in-order restriction of
`data.notes` to its folder, every folder has such an entry, `notesById`
agrees with first-match lookup in `data.notes`, and the `notesByFolderId`
keys are unique (JS `Map` keys are). -/
def IndexesConsistent (s : CacheState) : Prop :=
  (∀ kv ∈ s.notesByFolderId, kv.2 = s.notes.filter (fun n => n.folderId == kv.1)) ∧
  (∀ f ∈ s.folders, (mget s.notesByFolderId f.id).isSome) ∧
  s.notesById = s.notes.map (fun n => (n.id, n))

/-- Concrete bridge environment: no overrides, no installed app, a repo root
`/r` discoverable by the walk-up with its `Cargo.toml` present but no debug
build output. -/
def demoBridgeEnvCargo : BridgeEnv :=
  { anoteBridgeBin := none, bridgeBinaryPath := none, bridgeRepoRoot := none,
    homedir := "/h", cwd := "/w", dirname := "/d", envPwd := none,
    pathExists := fun s => s == "/r/src-tauri/Cargo.toml",
    parentDirs := fun _ => ["/r"] }

/-- Concrete bridge environment in which nothing exists at all. -/
def demoBridgeEnvEmpty : BridgeEnv :=
  { anoteBridgeBin := none, bridgeBinaryPath := none, bridgeRepoRoot := none,
    homedir := "/h", cwd := "/w", dirname := "/d", envPwd := none,
    pathExists := fun _ => false,
    parentDirs := fun _ => ["/r"] }

/-- Concrete folder forest for the folder-delete claim's witness: `F` with
children `F1`, `F2`, and an unrelated folder `G`. -/
def demoFolders : List Folder :=
  [⟨"F", "Parent", none, 0⟩, ⟨"F1", "Child1", some "F", 0⟩, ⟨"F2", "Child2", some "F", 0⟩,
   ⟨"G", "Other", none, 0⟩]

/-- One note in each of the demo folders. -/
def demoCacheNotes : List NoteR :=
  [⟨"n1", "F", 0, 0, 0, 0, "in F"⟩, ⟨"n2", "F1", 0, 0, 0, 0, "in F1"⟩,
   ⟨"n3", "F2", 0, 0, 0, 0, "in F2"⟩, ⟨"n4", "G", 0, 0, 0, 0, "in G"⟩]

/-- Concrete Entity Cache (with indexes as `rebuildIndexes` constructs them)
whose active selection sits inside the subtree of `F`. -/
def demoCache : CacheState :=
  { folders := demoFolders, notes := demoCacheNotes,
    foldersById := demoFolders.map (fun f => (f.id, f)),
    notesById := demoCacheNotes.map (fun n => (n.id, n)),
    notesByFolderId := demoFolders.map (fun f =>
      (f.id, demoCacheNotes.filter (fun n => n.folderId == f.id))),
    notesCountByFolder := demoFolders.map (fun f =>
      (f.id, (demoCacheNotes.filter (fun n => n.folderId == f.id)).length)),
    expandedFolders := ["F"],
    activeFolderId := some "F1",
    activeNoteId := some "n2" }

/-- Concrete note collection for the reorder claim's witness: three unpinned
notes and a pinned one in folder `f`, plus a note in folder `g`. -/
def demoNotes : List NoteR :=
  [⟨"a", "f", 0, 5, 0, 0, "A"⟩, ⟨"b", "f", 0, 7, 0, 0, "B"⟩, ⟨"c", "f", 0, 9, 0, 0, "C"⟩,
   ⟨"d", "f", 1, 0, 0, 0, "D"⟩, ⟨"e", "g", 0, 3, 0, 0, "E"⟩]

/-- Concrete starting state for the debounce claim's witness. -/
def demoState : CoState := ⟨⟨"t0", "p0", "b0", 0⟩, none, []⟩

/-- Concrete trace for the debounce claim's witness: three edits inside one
quiet period, then the timer fires 300 ms after the last one. -/
def demoTrace : List CoEv :=
  [.edit ⟨.title, "a", 0⟩, .edit ⟨.body, "x", 100⟩, .edit ⟨.title, "ab", 250⟩, .fire 550]

/-! # Theorems -/

/-! ## Map lemmas -/

theorem mget_mset_self {α : Type} (m : List (String × α)) (k : String) (v : α) :
    mget (mset m k v) k = some v := by
  induction m with
  | nil => simp [mset, mget]
  | cons hd tl ih =>
    obtain ⟨k', v'⟩ := hd
    by_cases h : k' = k
    · simp [mset, mget, h]
    · simp [mset, mget, h, ih]

theorem mget_mdel_self {α : Type} (m : List (String × α)) (k : String) :
    mget (mdel m k) k = none := by
  induction m with
  | nil => rfl
  | cons hd tl ih =>
    obtain ⟨k', v'⟩ := hd
    by_cases h : k' = k
    · simpa [mdel, h] using ih
    · simpa [mdel, h, mget] using ih

theorem mget_mdel_ne {α : Type} (m : List (String × α)) (k k' : String) (h : k' ≠ k) :
    mget (mdel m k) k' = mget m k' := by
  induction m with
  | nil => rfl
  | cons hd tl ih =>
    obtain ⟨a, v⟩ := hd
    by_cases ha : a = k
    · subst ha
      simpa [mdel, mget, Ne.symm h] using ih
    · by_cases hb : a = k'
      · simp [mdel, ha, mget, hb, h]
      · simpa [mdel, mget, ha, hb] using ih

theorem mget_map_byId (notes : List NoteR) (nid : String) :
    mget (notes.map (fun n => (n.id, n))) nid = notes.find? (fun n => n.id == nid) := by
  induction notes with
  | nil => rfl
  | cons hd tl ih =>
    by_cases h : hd.id = nid
    · simp [mget, List.find?, h]
    · simp only [List.map_cons, mget, List.find?, h, if_false]
      rw [show (hd.id == nid) = false by simpa using h]
      exact ih

/-! ## `persistNote` lemmas (claims C4, C5) -/

theorem NoteFields.eq_iff (a b : NoteFields) :
    a = b ↔ a.title = b.title ∧ a.body = b.body ∧ a.updatedAt = b.updatedAt := by
  cases a; cases b; simp

/-- After any `persistNote s id n`, the `lastSaved` entry for `id` is `n`
(the code records the values *before* issuing the write). -/
theorem mget_lastSaved_persistNote (s : PersistState) (id : String) (n : NoteFields) :
    mget (persistNote s id n).lastSaved id = some n := by
  unfold persistNote
  cases hm : mget s.lastSaved id with
  | none => simp [mget_mset_self]
  | some prev =>
    by_cases h : prev.title = n.title ∧ prev.body = n.body ∧ prev.updatedAt = n.updatedAt
    · have : prev = n := (NoteFields.eq_iff prev n).mpr h
      simp [h, hm, this]
    · simp [h, mget_mset_self]

/-- C4 (corrected, part kept from the claim): the dedupe skips the store
write exactly when the `lastSaved` entry agrees with the note on all of
title, body *and* updatedAt.  In particular a tick of the update timestamp
alone is *not* skipped — the code deliberately persists it (see the
counterexample `persistNote_timestamp_tick_issues_write`). -/
theorem persistNote_skips_iff_all_fields_unchanged
    (s : PersistState) (id : String) (n : NoteFields) :
    (persistNote s id n).writes = s.writes ↔ mget s.lastSaved id = some n := by
  unfold persistNote
  cases hm : mget s.lastSaved id with
  | none =>
    simp only [hm]
    constructor
    · intro h
      exact absurd (congrArg List.length h) (by simp)
    · intro h
      exact absurd h (by simp)
  | some prev =>
    by_cases h : prev.title = n.title ∧ prev.body = n.body ∧ prev.updatedAt = n.updatedAt
    · have hpn : prev = n := (NoteFields.eq_iff prev n).mpr h
      simp [h, hpn]
    · have hpn : prev ≠ n := fun hc => h ((NoteFields.eq_iff prev n).mp hc)
      simp only [h, if_false]
      constructor
      · intro hw
        exact absurd (congrArg List.length hw) (by simp)
      · intro hv
        exact absurd (Option.some.injEq .. ▸ hv) hpn

/-- C4 counterexample: with `lastSaved` holding `{title "t", body "b",
updatedAt 1}` for note `"n"`, persisting the same title and body with only
the derived update timestamp ticked to `2` issues the underlying write
instead of skipping it (the claim says this very case is skipped). -/
theorem persistNote_timestamp_tick_issues_write :
    (persistNote ⟨[("n", ⟨"t", "b", 1⟩)], []⟩ "n" ⟨"t", "b", 2⟩).writes
      = [("n", ⟨"t", "b", 2⟩)] := by
  decide

/-- C5: `persist` is idempotent on unchanged input — the second of two
back-to-back `persistNote` calls with identical title, body and updatedAt is
a complete no-op, so the underlying store write is issued at most once across
the pair. -/
theorem persistNote_idempotent (s : PersistState) (id : String) (n : NoteFields) :
    persistNote (persistNote s id n) id n = persistNote s id n ∧
    (persistNote (persistNote s id n) id n).writes.length ≤ s.writes.length + 1 := by
  have hskip : ∀ t : PersistState, mget t.lastSaved id = some n → persistNote t id n = t := by
    intro t ht
    unfold persistNote
    rw [ht]
    simp
  have hsecond := hskip (persistNote s id n) (mget_lastSaved_persistNote s id n)
  refine ⟨hsecond, ?_⟩
  rw [hsecond]
  unfold persistNote
  cases hm : mget s.lastSaved id with
  | none => simp
  | some prev =>
    by_cases h : prev.title = n.title ∧ prev.body = n.body ∧ prev.updatedAt = n.updatedAt
    · simp [h]
    · simp [h]

/-- If `lastSaved` already holds exactly the values about to be sent, a
`persistNote` call is a complete no-op. -/
theorem persistNote_noop_of_lastSaved (t : PersistState) (id : String) (n : NoteFields)
    (h : mget t.lastSaved id = some n) : persistNote t id n = t := by
  unfold persistNote
  rw [h]
  simp

/-! ## `flushPendingSaves` lemmas (claim C3) -/

theorem flushFold_spec (ids : List String) (acc : FlushState) :
    (ids.foldl flushStep acc).saveTimeouts = acc.saveTimeouts ∧
    (ids.foldl flushStep acc).notesById = acc.notesById ∧
    (ids.foldl flushStep acc).calls =
      acc.calls ++ ids.filterMap
        (fun id => (mget acc.notesById id).map (fun note => (id, note))) ∧
    (ids.foldl flushStep acc).settledWrites = acc.settledWrites := by
  induction ids generalizing acc with
  | nil => simp
  | cons id rest ih =>
    cases hm : mget acc.notesById id with
    | none =>
      have hstep : flushStep acc id = acc := by
        unfold flushStep
        rw [hm]
      rw [List.foldl_cons, hstep]
      obtain ⟨h1, h2, h3, h4⟩ := ih acc
      refine ⟨h1, h2, ?_, h4⟩
      rw [h3, List.filterMap_cons]
      simp [hm]
    | some note =>
      have hstep : flushStep acc id = { acc with calls := acc.calls ++ [(id, note)], ps := persistNote acc.ps id ⟨note.title, note.body, note.updatedAt⟩ } := by
        unfold flushStep
        rw [hm]
      rw [List.foldl_cons, hstep]
      obtain ⟨h1, h2, h3, h4⟩ := ih { acc with calls := acc.calls ++ [(id, note)], ps := persistNote acc.ps id ⟨note.title, note.body, note.updatedAt⟩ }
      refine ⟨h1, h2, ?_, h4⟩
      rw [h3, List.filterMap_cons]
      simp [hm]

/-- C3 (corrected): `flushPendingSaves` empties the pending-timer map
(cancelling every timer) and synchronously issues, before returning, exactly
one `persistNote` call — carrying the note's current field values — for every
pending note id *that is still present in the cache index* (a pending id
whose note has been deleted is skipped); and it returns with the
settled-write count unchanged — the store writes it issues are
fire-and-forget, their settlement is not awaited (see the counterexample
`flushPendingSaves_skips_deleted_and_returns_unsettled` for both
divergences from the original claim). -/
theorem flushPendingSaves_flushes_cached_pending_notes (s : FlushState) :
    (flushPendingSaves s).saveTimeouts = [] ∧
    (flushPendingSaves s).notesById = s.notesById ∧
    (flushPendingSaves s).calls =
      s.calls ++ s.saveTimeouts.filterMap
        (fun id => (mget s.notesById id).map (fun note => (id, note))) ∧
    (flushPendingSaves s).settledWrites = s.settledWrites := by
  obtain ⟨h1, h2, h3, h4⟩ := flushFold_spec s.saveTimeouts s
  exact ⟨rfl, h2, h3, h4⟩

/-- C3 counterexample, refuting the claim at two concrete states.
First: note `"A"` has a pending timer in `saveTimeouts` but is no longer in
`notesById` (`deleteNote` removes the note without clearing its pending
timer), and the flush issues *no* persist call for it — contrary to the
claim's "a persist for every note that had a pending timer".
Second: note `"B"` is pending and still cached; the flush does issue its
store write, but returns with that write still unsettled (`settledWrites`
still `0` of one issued write) — contrary to the claim's "returns only once
all of those persist calls have settled (success or failure)": the promise
`invoke` returns is fire-and-forget, nothing awaits it, and it cannot settle
before the synchronous function returns. -/
theorem flushPendingSaves_skips_deleted_and_returns_unsettled :
    (FlushState.saveTimeouts ⟨["A"], [], [], ⟨[], []⟩, 0⟩ = ["A"] ∧
      (flushPendingSaves ⟨["A"], [], [], ⟨[], []⟩, 0⟩).calls = []) ∧
    ((flushPendingSaves ⟨["B"], [("B", ⟨"t", "p", "b", 1⟩)], [], ⟨[], []⟩, 0⟩).ps.writes
        = [("B", ⟨"t", "b", 1⟩)] ∧
      (flushPendingSaves ⟨["B"], [("B", ⟨"t", "p", "b", 1⟩)], [], ⟨[], []⟩, 0⟩).settledWrites
        = 0) := by
  decide

/-! ## Conflict Guard lemmas (claim C1) -/

/-- C1 (spec-modelled conflict guard, real `persistNote` dedupe): on a
conflict signal the losing write is dropped — the persist state is untouched,
no store write is added, no retry timer is armed — and the Sync Watcher force
flag is raised so an immediate Reconciling cycle runs; the rejected local
value `v` can never be re-sent (a further `persistNote` with it is a complete
no-op, because the code recorded `v` in `lastSaved` before sending); and
after the forced reconciliation the cached note is the canonical value. -/
theorem conflict_drops_write_and_forces_reconcile
    (g : GuardState) (id : String) (v canonical : NoteFields)
    (hsent : mget g.ps.lastSaved id = some v) :
    (handlePersistResult g .conflict).forceReconcile = true ∧
    (handlePersistResult g .conflict).ps = g.ps ∧
    (handlePersistResult g .conflict).pendingTimer = g.pendingTimer ∧
    persistNote (handlePersistResult g .conflict).ps id v = (handlePersistResult g .conflict).ps ∧
    (reconcileNote (handlePersistResult g .conflict) canonical).cacheNote = canonical := by
  refine ⟨rfl, rfl, rfl, ?_, rfl⟩
  exact persistNote_noop_of_lastSaved _ id v hsent

/-- C1 witness: the guard applied to a concrete state whose `lastSaved`
records the stale value just rejected. -/
theorem conflict_drops_write_and_forces_reconcile_witness :
    mget (GuardState.ps ⟨⟨[("n", ⟨"t", "b", 1⟩)], []⟩, ⟨"t", "b", 1⟩, false, false⟩).lastSaved "n"
      = some ⟨"t", "b", 1⟩ ∧
    (handlePersistResult ⟨⟨[("n", ⟨"t", "b", 1⟩)], []⟩, ⟨"t", "b", 1⟩, false, false⟩
        .conflict).forceReconcile = true ∧
    (handlePersistResult ⟨⟨[("n", ⟨"t", "b", 1⟩)], []⟩, ⟨"t", "b", 1⟩, false, false⟩
        .conflict).ps = ⟨[("n", ⟨"t", "b", 1⟩)], []⟩ ∧
    (handlePersistResult ⟨⟨[("n", ⟨"t", "b", 1⟩)], []⟩, ⟨"t", "b", 1⟩, false, false⟩
        .conflict).pendingTimer = false ∧
    persistNote (handlePersistResult ⟨⟨[("n", ⟨"t", "b", 1⟩)], []⟩, ⟨"t", "b", 1⟩, false, false⟩
        .conflict).ps "n" ⟨"t", "b", 1⟩
      = (handlePersistResult ⟨⟨[("n", ⟨"t", "b", 1⟩)], []⟩, ⟨"t", "b", 1⟩, false, false⟩
        .conflict).ps ∧
    (reconcileNote (handlePersistResult ⟨⟨[("n", ⟨"t", "b", 1⟩)], []⟩, ⟨"t", "b", 1⟩, false, false⟩
        .conflict) ⟨"T", "B", 9⟩).cacheNote = ⟨"T", "B", 9⟩ := by
  have h := conflict_drops_write_and_forces_reconcile
    ⟨⟨[("n", ⟨"t", "b", 1⟩)], []⟩, ⟨"t", "b", 1⟩, false, false⟩ "n"
    ⟨"t", "b", 1⟩ ⟨"T", "B", 9⟩ (by decide)
  exact ⟨by decide, h.1, h.2.1, h.2.2.1, h.2.2.2.1, h.2.2.2.2⟩

/-! ## Debounce lemmas (claim C2) -/

theorem coValid_cons_iff (s : CoState) (clock : Nat) (e : CoEv) (rest : List CoEv) :
    coValid s clock (e :: rest) = true ↔
      clock ≤ e.time ∧
      (∀ d, s.deadline = some d → e.time ≤ d) ∧
      (∀ t, e = CoEv.fire t → s.deadline = some t) ∧
      coValid (coStep s e) e.time rest = true := by
  cases e with
  | edit ed =>
    cases hd : s.deadline with
    | none => simp [coValid, hd, CoEv.time]
    | some d => simp [coValid, hd, CoEv.time, and_assoc]
  | fire t =>
    cases hd : s.deadline with
    | none => simp [coValid, hd, CoEv.time]
    | some d =>
      simp only [coValid, hd, CoEv.time, Bool.and_eq_true, decide_eq_true_eq, beq_iff_eq,
        Option.some.injEq, CoEv.fire.injEq]
      constructor
      · rintro ⟨⟨⟨h1, h2⟩, h3⟩, h4⟩
        exact ⟨h1, fun d' hd' => hd' ▸ h2, fun t' ht' => ht' ▸ h3, h4⟩
      · rintro ⟨h1, h2, h3, h4⟩
        exact ⟨⟨⟨h1, h2 d rfl⟩, h3 t rfl⟩, h4⟩

theorem coValid_time_lower (evs : List CoEv) : ∀ (s : CoState) (clock : Nat),
    coValid s clock evs = true → ∀ e ∈ evs, clock ≤ e.time := by
  induction evs with
  | nil =>
    intro s clock _ e he
    simp at he
  | cons e rest ih =>
    intro s clock hv e' he'
    obtain ⟨h1, _, _, h4⟩ := (coValid_cons_iff s clock e rest).mp hv
    rcases List.mem_cons.mp he' with h | h
    · exact h ▸ h1
    · exact le_trans h1 (ih (coStep s e) e.time h4 e' h)

/-- The first edit of a trace occurs in the trace. -/
theorem editsOf_head_mem (evs : List CoEv) :
    ∀ e₀, (editsOf evs).head? = some e₀ → CoEv.edit e₀ ∈ evs := by
  induction evs with
  | nil =>
    intro e₀ h
    simp [editsOf] at h
  | cons e rest ih =>
    intro e₀ h
    cases e with
    | edit ed =>
      rw [editsOf] at h
      simp only [List.head?_cons, Option.some.injEq] at h
      exact h ▸ List.mem_cons_self _ _
    | fire t =>
      rw [editsOf] at h
      exact List.mem_cons_of_mem _ (ih e₀ h)

theorem withinQuiet_cons (x : EditEv) (xs : List EditEv)
    (h : withinQuiet (x :: xs) = true) :
    withinQuiet xs = true ∧ ∀ y, xs.head? = some y → y.time < x.time + 300 := by
  cases xs with
  | nil =>
    refine ⟨rfl, ?_⟩
    intro y hy
    simp at hy
  | cons y ys =>
    rw [withinQuiet, Bool.and_eq_true, decide_eq_true_eq] at h
    refine ⟨h.2, ?_⟩
    intro y' hy'
    simp only [List.head?_cons, Option.some.injEq] at hy'
    exact hy' ▸ h.1

theorem coStep_edit_deadline (s : CoState) (ed : EditEv) :
    (coStep s (.edit ed)).deadline = some (ed.time + 300) := by
  cases ed with
  | mk f v t =>
    cases f <;> rfl

theorem coStep_edit_note (s : CoState) (ed : EditEv) :
    (coStep s (.edit ed)).note = applyEdit s.note ed := by
  cases ed with
  | mk f v t =>
    cases f <;> rfl

theorem coStep_edit_log (s : CoState) (ed : EditEv) :
    (coStep s (.edit ed)).log = s.log := by
  cases ed with
  | mk f v t =>
    cases f <;> simp [coStep, updateNoteTitle, updateNoteBody]

/-- Workhorse: from a state with a pending timer at `d`, a valid, complete
trace whose edits all fall in one quiet period (the first one before `d`)
appends exactly one `persistNote` snapshot — the fully edited note — and ends
with no timer pending. -/
theorem coRun_pending (evs : List CoEv) : ∀ (s : CoState) (clock d : Nat),
    s.deadline = some d →
    coValid s clock evs = true →
    withinQuiet (editsOf evs) = true →
    (∀ e₀, (editsOf evs).head? = some e₀ → e₀.time < d) →
    (coRun s evs).log = s.log ++ [applyEdits s.note (editsOf evs)] ∧
      (coRun s evs).deadline = none := by
  induction evs with
  | nil =>
    intro s clock d hdl hv _ _
    rw [coValid] at hv
    rw [hdl] at hv
    simp at hv
  | cons e rest ih =>
    intro s clock d hdl hv hquiet hhead
    obtain ⟨hclock, hle, hfire, hrest⟩ := (coValid_cons_iff s clock e rest).mp hv
    cases e with
    | fire t =>
      have ht : s.deadline = some t := hfire t rfl
      have htd : t = d := by
        rw [hdl] at ht
        injection ht with h
        exact h.symm
      subst htd
      -- after the fire, no edits can remain: they would be both before and after `t`
      have hnoedits : editsOf rest = [] := by
        cases hrest_edits : (editsOf rest).head? with
        | none => exact List.head?_eq_none_iff.mp hrest_edits
        | some e₀ =>
          have hmem := editsOf_head_mem rest e₀ hrest_edits
          have hge := coValid_time_lower rest (coStep s (.fire t)) t hrest (CoEv.edit e₀) hmem
          have hlt : e₀.time < t := by
            apply hhead
            simpa [editsOf] using hrest_edits
          exact absurd hge (by simpa [CoEv.time] using Nat.not_le.mpr hlt)
      have hrest_nil : rest = [] := by
        cases rest with
        | nil => rfl
        | cons e' rest' =>
          obtain ⟨_, _, hfire', _⟩ :=
            (coValid_cons_iff (coStep s (.fire t)) t e' rest').mp hrest
          cases e' with
          | edit ed' => simp [editsOf] at hnoedits
          | fire t' =>
            have := hfire' t' rfl
            simp [coStep] at this
      subst hrest_nil
      exact ⟨rfl, rfl⟩
    | edit ed =>
      have hquiet' := withinQuiet_cons ed (editsOf rest) (by simpa [editsOf] using hquiet)
      have hstep := ih (coStep s (.edit ed)) ed.time (ed.time + 300)
        (coStep_edit_deadline s ed) hrest hquiet'.1
        (fun e₀ h => hquiet'.2 e₀ h)
      rw [show coRun s (CoEv.edit ed :: rest) = coRun (coStep s (.edit ed)) rest from rfl]
      refine ⟨?_, hstep.2⟩
      rw [hstep.1, coStep_edit_log, coStep_edit_note]
      rw [show editsOf (CoEv.edit ed :: rest) = ed :: editsOf rest from rfl]
      rfl

theorem applyEdits_title (n : NoteObj) (es : List EditEv) :
    (applyEdits n es).title = lastValue .title n.title es := by
  induction es generalizing n with
  | nil => rfl
  | cons e rest ih =>
    rw [show applyEdits n (e :: rest) = applyEdits (applyEdit n e) rest from rfl,
      show lastValue .title n.title (e :: rest)
        = lastValue .title (if e.field = .title then e.value else n.title) rest from rfl,
      ih]
    congr 1
    cases hf : e.field <;> simp [applyEdit, hf]

theorem applyEdits_body (n : NoteObj) (es : List EditEv) :
    (applyEdits n es).body = lastValue .body n.body es := by
  induction es generalizing n with
  | nil => rfl
  | cons e rest ih =>
    rw [show applyEdits n (e :: rest) = applyEdits (applyEdit n e) rest from rfl,
      show lastValue .body n.body (e :: rest)
        = lastValue .body (if e.field = .body then e.value else n.body) rest from rfl,
      ih]
    congr 1
    cases hf : e.field <;> simp [applyEdit, hf]

/-- C2: along any valid, complete event-loop trace starting with no pending
timer, whose edits to the note form one debounce quiet period (each edit less
than 300 ms after the previous, so each resets the 300 ms timer), exactly one
`persistNote` call is issued — by the single timer expiry after the quiet
period — and it carries the final value of every edited field (last title,
last body); no intermediate value is ever passed to a persist call. -/
theorem debounce_coalesces_to_single_persist
    (s : CoState) (clock : Nat) (evs : List CoEv)
    (hidle : s.deadline = none)
    (hne : editsOf evs ≠ [])
    (hquiet : withinQuiet (editsOf evs) = true)
    (hvalid : coValid s clock evs = true) :
    (coRun s evs).log = s.log ++ [applyEdits s.note (editsOf evs)] ∧
    (applyEdits s.note (editsOf evs)).title = lastValue .title s.note.title (editsOf evs) ∧
    (applyEdits s.note (editsOf evs)).body = lastValue .body s.note.body (editsOf evs) ∧
    (coRun s evs).deadline = none := by
  cases evs with
  | nil => exact absurd rfl hne
  | cons e rest =>
    obtain ⟨hclock, hle, hfire, hrest⟩ := (coValid_cons_iff s clock e rest).mp hvalid
    cases e with
    | fire t =>
      have := hfire t rfl
      rw [hidle] at this
      exact absurd this (by simp)
    | edit ed =>
      have hquiet' := withinQuiet_cons ed (editsOf rest) (by simpa [editsOf] using hquiet)
      have hmain := coRun_pending rest (coStep s (.edit ed)) ed.time (ed.time + 300)
        (coStep_edit_deadline s ed) hrest hquiet'.1 (fun e₀ h => hquiet'.2 e₀ h)
      refine ⟨?_, applyEdits_title s.note _, applyEdits_body s.note _, hmain.2⟩
      rw [show coRun s (CoEv.edit ed :: rest) = coRun (coStep s (.edit ed)) rest from rfl,
        hmain.1, coStep_edit_log, coStep_edit_note,
        show editsOf (CoEv.edit ed :: rest) = ed :: editsOf rest from rfl]
      rfl

/-- C2 witness: a concrete three-edit quiet period (times 0, 100, 250)
followed by the timer expiring at 550. -/
theorem debounce_coalesces_to_single_persist_witness :
    demoState.deadline = none ∧ editsOf demoTrace ≠ [] ∧
    withinQuiet (editsOf demoTrace) = true ∧ coValid demoState 0 demoTrace = true ∧
    ((coRun demoState demoTrace).log
        = demoState.log ++ [applyEdits demoState.note (editsOf demoTrace)] ∧
      (applyEdits demoState.note (editsOf demoTrace)).title
        = lastValue .title demoState.note.title (editsOf demoTrace) ∧
      (applyEdits demoState.note (editsOf demoTrace)).body
        = lastValue .body demoState.note.body (editsOf demoTrace) ∧
      (coRun demoState demoTrace).deadline = none) :=
  ⟨by decide, by decide, by decide, by decide,
    debounce_coalesces_to_single_persist demoState 0 demoTrace
      (by decide) (by decide) (by decide) (by decide)⟩

/-! ## Memoized preview lemmas (claim C10) -/

theorem cacheWF_mget {f : String → String} {cache : List (String × String)}
    (hwf : CacheWF f cache) {raw r : String} (h : mget cache raw = some r) :
    r = f raw := by
  induction cache with
  | nil => simp [mget] at h
  | cons kv rest ih =>
    obtain ⟨k, v⟩ := kv
    by_cases hk : k = raw
    · rw [mget, if_pos hk] at h
      obtain rfl : v = r := by injection h
      have := hwf (k, v) (List.mem_cons_self _ _)
      simpa [hk] using this
    · rw [mget, if_neg hk] at h
      exact ih (fun kv hkv => hwf kv (List.mem_cons_of_mem _ hkv)) h

theorem cacheWF_mset {f : String → String} {cache : List (String × String)}
    (hwf : CacheWF f cache) (raw : String) :
    CacheWF f (mset cache raw (f raw)) := by
  induction cache with
  | nil =>
    intro kv hkv
    simp [mset] at hkv
    simp [hkv]
  | cons hd rest ih =>
    obtain ⟨k, v⟩ := hd
    by_cases hk : k = raw
    · intro kv hkv
      rw [mset, if_pos hk] at hkv
      rcases List.mem_cons.mp hkv with h | h
      · simp [h]
      · exact hwf kv (List.mem_cons_of_mem _ h)
    · intro kv hkv
      rw [mset, if_neg hk] at hkv
      rcases List.mem_cons.mp hkv with h | h
      · exact hwf kv (h ▸ List.mem_cons_self _ _)
      · exact ih (fun kv hkv => hwf kv (List.mem_cons_of_mem _ hkv)) kv h

theorem cacheWF_step {f : String → String} {cache : List (String × String)}
    (hwf : CacheWF f cache) (raw : String) :
    CacheWF f (getStrippedPreview f cache raw).2 := by
  unfold getStrippedPreview
  by_cases hr : raw = ""
  · simpa [hr] using hwf
  · rw [if_neg hr]
    cases hm : mget cache raw with
    | some r => exact hwf
    | none =>
      by_cases hsz : 2000 ≤ cache.length
      · have hempty : CacheWF f ([] : List (String × String)) := by
          intro kv hkv
          simp at hkv
        simpa [hsz] using cacheWF_mset hempty raw
      · simpa [hsz] using cacheWF_mset hwf raw

theorem reachable_cacheWF {f : String → String} {cache : List (String × String)}
    (h : ReachableCache f cache) : CacheWF f cache := by
  induction h with
  | empty =>
    intro kv hkv
    simp at hkv
  | step cache raw _ ih => exact cacheWF_step ih raw

/-- C10: the memoized `getStrippedPreview` is observationally equal to the
direct computation: on every cache state the module-level
`strippedPreviewCache` can actually be in (any state generated from the empty
map, including through the clear-at-2000 resets), it returns the empty string
for empty input and exactly `stripMarkdown raw` otherwise. -/
theorem getStrippedPreview_refines_stripMarkdown
    (stripMarkdown : String → String) (cache : List (String × String)) (raw : String)
    (h : ReachableCache stripMarkdown cache) :
    (getStrippedPreview stripMarkdown cache raw).1 = strippedPreviewSpec stripMarkdown raw := by
  have hwf := reachable_cacheWF h
  unfold getStrippedPreview strippedPreviewSpec
  by_cases hr : raw = ""
  · simp [hr]
  · rw [if_neg hr, if_neg hr]
    cases hm : mget cache raw with
    | some r => simpa using cacheWF_mget hwf hm
    | none => simp

/-- C10 witness: the theorem applied to the concrete stand-in transform, the
empty (reachable) cache and the input `"ab"`. -/
theorem getStrippedPreview_refines_stripMarkdown_witness :
    (getStrippedPreview demoStrip [] "ab").1 = strippedPreviewSpec demoStrip "ab" :=
  getStrippedPreview_refines_stripMarkdown demoStrip [] "ab" ReachableCache.empty

/-! ## Reorder lemmas (claim C6) -/

theorem idxOfId_eq_none_of_not_mem (l : List String) (k : String) (h : k ∉ l) :
    idxOfId l k = none := by
  induction l with
  | nil => rfl
  | cons a t ih =>
    have hak : ¬a = k := fun hc => h (hc ▸ List.mem_cons_self a t)
    rw [idxOfId, if_neg hak, ih (fun hm => h (List.mem_cons_of_mem a hm))]
    rfl

theorem idxOfId_isSome_of_mem (l : List String) (k : String) (h : k ∈ l) :
    ∃ i, idxOfId l k = some i := by
  induction l with
  | nil => simp at h
  | cons a t ih =>
    by_cases hak : a = k
    · exact ⟨0, by rw [idxOfId, if_pos hak]⟩
    · rcases List.mem_cons.mp h with hc | hm
      · exact absurd hc.symm hak
      · obtain ⟨i, hi⟩ := ih hm
        exact ⟨i + 1, by rw [idxOfId, if_neg hak, hi]; rfl⟩

/-- Mapping every element of a duplicate-free key list to its own index gives
exactly `0, 1, ..., length - 1`. -/
theorem map_idxOfId_self (l : List String) (h : l.Nodup) :
    l.map (fun k => (idxOfId l k).getD 0) = List.range l.length := by
  induction l with
  | nil => rfl
  | cons a t ih =>
    obtain ⟨hat, ht⟩ := List.nodup_cons.mp h
    rw [List.map_cons]
    have h0 : (idxOfId (a :: t) a).getD 0 = 0 := by
      rw [idxOfId, if_pos rfl]
      rfl
    have hmap : t.map (fun k => (idxOfId (a :: t) k).getD 0)
        = t.map (fun k => (idxOfId t k).getD 0 + 1) := by
      apply List.map_congr_left
      intro k hk
      have hak : ¬a = k := fun hc => hat (hc ▸ hk)
      obtain ⟨i, hi⟩ := idxOfId_isSome_of_mem t k hk
      rw [idxOfId, if_neg hak, hi]
      simp [hi]
    rw [h0, hmap, List.length_cons, List.range_succ_eq_map]
    rw [show (fun k => (idxOfId t k).getD 0 + 1)
        = (fun i => i + 1) ∘ (fun k => (idxOfId t k).getD 0) from rfl]
    rw [← List.map_map, ih ht]

/-- Inserting at a position within bounds is, up to permutation, a `cons`. -/
theorem insertIdx_perm_cons {α : Type} (a : α) : ∀ (n : Nat) (l : List α), n ≤ l.length →
    List.Perm (l.insertIdx n a) (a :: l) := by
  intro n
  induction n with
  | zero =>
    intro l _
    rw [List.insertIdx_zero]
  | succ m ih =>
    intro l hl
    cases l with
    | nil => simp at hl
    | cons x t =>
      rw [List.insertIdx_succ_cons]
      exact ((ih t (Nat.le_of_succ_le_succ hl)).cons x).trans (List.Perm.swap a x t)

/-- Removing the (unique) note with `a`'s id and consing `a` back is a
permutation of the original list. -/
theorem cons_filter_ne_perm : ∀ (l : List NoteR) (a : NoteR),
    (l.map NoteR.id).Nodup → a ∈ l →
    List.Perm (a :: l.filter (fun n => n.id != a.id)) l := by
  intro l
  induction l with
  | nil =>
    intro a _ ha
    simp at ha
  | cons x t ih =>
    intro a hnd ha
    rw [List.map_cons, List.nodup_cons] at hnd
    obtain ⟨hxt, ht⟩ := hnd
    rcases List.mem_cons.mp ha with hax | hat
    · subst hax
      have hft : t.filter (fun n => n.id != a.id) = t := by
        apply List.filter_eq_self.mpr
        intro n hn
        simp only [bne_iff_ne, ne_eq]
        exact fun hc => hxt (hc ▸ List.mem_map_of_mem NoteR.id hn)
      rw [List.filter_cons, if_neg (by simp), hft]
    · have hxa : ¬(x.id = a.id) := fun hc =>
        hxt (hc ▸ List.mem_map_of_mem NoteR.id hat)
      rw [List.filter_cons, if_pos (by simpa using hxa)]
      exact (List.Perm.swap x a _).trans ((ih a ht hat).cons x)

/-- Core property of `applyManualReorder`: if the group list's ids are a
permutation of the ids of the notes satisfying a (sortOrder-blind) predicate
`P`, then the reordered collection assigns the group exactly the sort orders
`0, ..., N-1`, and every note outside the group is untouched, in place. -/
theorem applyManualReorder_spec (notes ordered : List NoteR) (P : NoteR → Bool)
    (hPinv : ∀ (n : NoteR) (i : Nat), P { n with sortOrder := i } = P n)
    (hnodup : (notes.map NoteR.id).Nodup)
    (hperm : List.Perm (ordered.map NoteR.id) ((notes.filter P).map NoteR.id)) :
    List.Perm (((applyManualReorder notes ordered).filter P).map NoteR.sortOrder)
      (List.range (notes.filter P).length) ∧
    ∀ (i : Nat) (n : NoteR), notes[i]? = some n → P n = false →
      (applyManualReorder notes ordered)[i]? = some n := by
  have hidsNodup : ((notes.filter P).map NoteR.id).Nodup :=
    ((List.filter_sublist notes).map NoteR.id).nodup hnodup
  have hordNodup : (ordered.map NoteR.id).Nodup := hperm.nodup_iff.mpr hidsNodup
  constructor
  · have h1 : (applyManualReorder notes ordered).filter P
        = (notes.filter P).map (fun n =>
            match idxOfId (ordered.map NoteR.id) n.id with
            | some i => { n with sortOrder := i }
            | none => n) := by
      rw [applyManualReorder, List.filter_map]
      congr 1
      apply List.filter_congr
      intro n _
      cases hio : idxOfId (ordered.map NoteR.id) n.id with
      | some i => simp [hio, hPinv]
      | none => simp [hio]
    have hEq : ((applyManualReorder notes ordered).filter P).map NoteR.sortOrder
        = ((notes.filter P).map NoteR.id).map
            (fun k => (idxOfId (ordered.map NoteR.id) k).getD 0) := by
      rw [h1, List.map_map, List.map_map]
      apply List.map_congr_left
      intro n hn
      simp only [Function.comp_apply]
      have hmem : n.id ∈ ordered.map NoteR.id :=
        hperm.mem_iff.mpr (List.mem_map_of_mem NoteR.id hn)
      obtain ⟨i, hi⟩ := idxOfId_isSome_of_mem _ _ hmem
      rw [hi]
      simp
    rw [hEq]
    refine (hperm.symm.map _).trans ?_
    rw [map_idxOfId_self _ hordNodup, hperm.length_eq, List.length_map]
  · intro i n hin hPn
    have hnmem : n ∈ notes := List.getElem?_mem hin
    have hnot : n.id ∉ ordered.map NoteR.id := by
      intro hmem
      have hmem2 : n.id ∈ (notes.filter P).map NoteR.id := hperm.mem_iff.mp hmem
      obtain ⟨m, hm, hmid⟩ := List.mem_map.mp hmem2
      obtain ⟨hmmem, hmP⟩ := List.mem_filter.mp hm
      have hmn : m = n := List.inj_on_of_nodup_map hnodup hmmem hnmem hmid
      rw [hmn, hPn] at hmP
      exact Bool.false_ne_true hmP
    rw [applyManualReorder, List.getElem?_map, hin]
    simp [idxOfId_eq_none_of_not_mem _ _ hnot]

/-- C6: a manual reorder (drag within the pinned/unpinned group of the
dragged note's folder) assigns that group exactly the sort orders
`0, 1, ..., N-1` (a permutation of `range N`), and leaves every note outside
the group untouched at its original position in the collection. -/
theorem reorderByTarget_contiguous_and_stable
    (notes : List NoteR) (dragId targetId : String) (pl : Placement) (dn tn : NoteR)
    (hnodup : (notes.map NoteR.id).Nodup)
    (hd0 : dragId ≠ "")
    (hne : dragId ≠ targetId)
    (hdrag : notes.find? (fun n => n.id == dragId) = some dn)
    (htarg : notes.find? (fun n => n.id == targetId) = some tn)
    (hpin : (dn.pinned != 0) = (tn.pinned != 0))
    (hfold : tn.folderId = dn.folderId) :
    List.Perm (((reorderByTarget notes dragId targetId pl).filter
        (inGroup dn.folderId (dn.pinned != 0))).map NoteR.sortOrder)
      (List.range (notes.filter (inGroup dn.folderId (dn.pinned != 0))).length) ∧
    ∀ (i : Nat) (n : NoteR), notes[i]? = some n → inGroup dn.folderId (dn.pinned != 0) n = false →
      (reorderByTarget notes dragId targetId pl)[i]? = some n := by
  have dnid : dn.id = dragId := by simpa using List.find?_some hdrag
  have tnid : tn.id = targetId := by simpa using List.find?_some htarg
  have dnmem : dn ∈ notes := List.mem_of_find?_eq_some hdrag
  have tnmem : tn ∈ notes := List.mem_of_find?_eq_some htarg
  have hPdn : inGroup dn.folderId (dn.pinned != 0) dn = true := by simp [inGroup]
  have hPtn : inGroup dn.folderId (dn.pinned != 0) tn = true := by
    simp [inGroup, hfold, hpin]
  -- the group as the code builds it is a permutation of the data's filter
  have hgroupPerm : List.Perm
      ((getSortedFolderNotes notes dn.folderId).filter
        (fun n => (n.pinned != 0) == (dn.pinned != 0)))
      (notes.filter (inGroup dn.folderId (dn.pinned != 0))) := by
    have h := (List.mergeSort_perm (notes.filter (fun n => n.folderId == dn.folderId))
        manualLE).filter (fun n => (n.pinned != 0) == (dn.pinned != 0))
    rw [List.filter_filter] at h
    have heq : notes.filter
          (fun n => ((n.pinned != 0) == (dn.pinned != 0)) && (n.folderId == dn.folderId))
        = notes.filter (inGroup dn.folderId (dn.pinned != 0)) := by
      apply List.filter_congr
      intro n _
      simp [inGroup, Bool.and_comm]
    rw [heq] at h
    exact h
  have htnGroup : tn ∈ (getSortedFolderNotes notes dn.folderId).filter
      (fun n => (n.pinned != 0) == (dn.pinned != 0)) :=
    hgroupPerm.mem_iff.mpr (List.mem_filter.mpr ⟨tnmem, hPtn⟩)
  have hdnGroup : dn ∈ (getSortedFolderNotes notes dn.folderId).filter
      (fun n => (n.pinned != 0) == (dn.pinned != 0)) :=
    hgroupPerm.mem_iff.mpr (List.mem_filter.mpr ⟨dnmem, hPdn⟩)
  have htnFiltered : tn ∈ ((getSortedFolderNotes notes dn.folderId).filter
      (fun n => (n.pinned != 0) == (dn.pinned != 0))).filter (fun n => n.id != dragId) :=
    List.mem_filter.mpr ⟨htnGroup, by
      rw [tnid]
      exact bne_iff_ne.mpr (fun hc => hne hc.symm)⟩
  have hGroupIdsNodup : ((((getSortedFolderNotes notes dn.folderId).filter
      (fun n => (n.pinned != 0) == (dn.pinned != 0)))).map NoteR.id).Nodup :=
    (hgroupPerm.map NoteR.id).nodup_iff.mpr
      (((List.filter_sublist notes).map NoteR.id).nodup hnodup)
  -- the findIndex call succeeds
  obtain ⟨k, hidx⟩ : ∃ k, (((getSortedFolderNotes notes dn.folderId).filter
      (fun n => (n.pinned != 0) == (dn.pinned != 0))).filter
        (fun n => n.id != dragId)).findIdx? (fun n => n.id == targetId) = some k := by
    cases hcase : (((getSortedFolderNotes notes dn.folderId).filter
        (fun n => (n.pinned != 0) == (dn.pinned != 0))).filter
          (fun n => n.id != dragId)).findIdx? (fun n => n.id == targetId) with
    | some k => exact ⟨k, rfl⟩
    | none =>
      exfalso
      have hnone := List.findIdx?_eq_none_iff.mp hcase tn htnFiltered
      rw [tnid] at hnone
      simp at hnone
  have hklt : k < (((getSortedFolderNotes notes dn.folderId).filter
      (fun n => (n.pinned != 0) == (dn.pinned != 0))).filter
        (fun n => n.id != dragId)).length :=
    (List.findIdx?_eq_some_iff_findIdx_eq.mp hidx).1
  -- reduce reorderByTarget to applyManualReorder on the spliced group list
  have hmain : reorderByTarget notes dragId targetId pl
      = applyManualReorder notes
          ((((getSortedFolderNotes notes dn.folderId).filter
              (fun n => (n.pinned != 0) == (dn.pinned != 0))).filter
                (fun n => n.id != dragId)).insertIdx
            (if pl = Placement.below then k + 1 else k) dn) := by
    unfold reorderByTarget
    rw [if_neg (by push_neg; exact ⟨hd0, hne⟩), hdrag, htarg]
    simp only [if_neg (show ¬((dn.pinned != 0) ≠ (tn.pinned != 0)) by simp [hpin]), hidx]
  -- the spliced list's ids are a permutation of the group's ids
  have hperm : List.Perm
      (((((getSortedFolderNotes notes dn.folderId).filter
          (fun n => (n.pinned != 0) == (dn.pinned != 0))).filter
            (fun n => n.id != dragId)).insertIdx
          (if pl = Placement.below then k + 1 else k) dn).map NoteR.id)
      ((notes.filter (inGroup dn.folderId (dn.pinned != 0))).map NoteR.id) := by
    have hins := insertIdx_perm_cons dn (if pl = Placement.below then k + 1 else k)
      ((((getSortedFolderNotes notes dn.folderId).filter
          (fun n => (n.pinned != 0) == (dn.pinned != 0))).filter
            (fun n => n.id != dragId)))
      (by split <;> omega)
    have hback := cons_filter_ne_perm
      ((getSortedFolderNotes notes dn.folderId).filter
        (fun n => (n.pinned != 0) == (dn.pinned != 0))) dn hGroupIdsNodup hdnGroup
    rw [dnid] at hback
    exact ((hins.trans hback).trans hgroupPerm).map NoteR.id
  rw [hmain]
  exact applyManualReorder_spec notes _ (inGroup dn.folderId (dn.pinned != 0))
    (fun n i => rfl) hnodup hperm

/-- C6 witness: dragging note `"a"` below note `"c"` in folder `f`'s unpinned
group of `demoNotes`. -/
theorem reorderByTarget_contiguous_and_stable_witness :
    ((demoNotes.map NoteR.id).Nodup ∧
      demoNotes.find? (fun n => n.id == "a") = some ⟨"a", "f", 0, 5, 0, 0, "A"⟩ ∧
      demoNotes.find? (fun n => n.id == "c") = some ⟨"c", "f", 0, 9, 0, 0, "C"⟩) ∧
    (List.Perm (((reorderByTarget demoNotes "a" "c" Placement.below).filter
        (inGroup "f" false)).map NoteR.sortOrder)
      (List.range (demoNotes.filter (inGroup "f" false)).length) ∧
    ∀ (i : Nat) (n : NoteR), demoNotes[i]? = some n → inGroup "f" false n = false →
      (reorderByTarget demoNotes "a" "c" Placement.below)[i]? = some n) :=
  ⟨⟨by decide, by decide, by decide⟩,
    reorderByTarget_contiguous_and_stable demoNotes "a" "c" Placement.below
      ⟨"a", "f", 0, 5, 0, 0, "A"⟩ ⟨"c", "f", 0, 9, 0, 0, "C"⟩
      (by decide) (by decide) (by decide) (by decide) (by decide) (by decide) (by decide)⟩



/-! ## Folder-delete lemmas (claim C7) -/

theorem mget_mem {α : Type} : ∀ (m : List (String × α)) (k : String) (v : α),
    mget m k = some v → (k, v) ∈ m := by
  intro m
  induction m with
  | nil =>
    intro k v h
    simp [mget] at h
  | cons kv rest ih =>
    intro k v h
    obtain ⟨k0, v0⟩ := kv
    by_cases hk : k0 = k
    · rw [mget, if_pos hk] at h
      obtain rfl : v0 = v := by injection h
      exact hk ▸ List.mem_cons_self _ _
    · rw [mget, if_neg hk] at h
      exact List.mem_cons_of_mem _ (ih k v h)

/-- Soundness of the fueled recursion: everything it returns is a strict
descendant. -/
theorem getDescendantFolderIds_sound (folders : List Folder) :
    ∀ (fuel : Nat) (root x : String), x ∈ getDescendantFolderIds folders fuel root →
      IsDescendant folders root x := by
  intro fuel
  induction fuel with
  | zero =>
    intro root x hx
    simp [getDescendantFolderIds] at hx
  | succ m ih =>
    intro root x hx
    rw [getDescendantFolderIds] at hx
    obtain ⟨c, hc, hcx⟩ := List.mem_flatMap.mp hx
    obtain ⟨hcmem, hcparent⟩ := List.mem_filter.mp hc
    have hcp : c.parentId = some root := by simpa using hcparent
    rcases List.mem_cons.mp hcx with hhead | htail
    · exact ⟨[c], hcmem, hcp, Or.inl ⟨rfl, hhead.symm⟩⟩
    · obtain ⟨ch, hch⟩ := ih c.id x htail
      exact ⟨c :: ch, hcmem, hcp, Or.inr hch⟩

/-- Completeness of the fueled recursion for chains within the fuel bound. -/
theorem getDescendantFolderIds_complete (folders : List Folder) :
    ∀ (ch : List Folder) (root x : String) (fuel : Nat),
      chainOk folders root ch x → ch.length ≤ fuel →
      x ∈ getDescendantFolderIds folders fuel root := by
  intro ch
  induction ch with
  | nil =>
    intro root x fuel hch
    exact absurd hch id
  | cons f rest ih =>
    intro root x fuel hch hlen
    obtain ⟨hfmem, hfparent, hrest⟩ := hch
    cases fuel with
    | zero => simp at hlen
    | succ m =>
      rw [getDescendantFolderIds]
      apply List.mem_flatMap.mpr
      refine ⟨f, List.mem_filter.mpr ⟨hfmem, by simp [hfparent]⟩, ?_⟩
      rcases hrest with ⟨hnil, hfx⟩ | hchain
      · exact hfx ▸ List.mem_cons_self _ _
      · exact List.mem_cons_of_mem _
          (ih f.id x m hchain (by simpa using Nat.le_of_succ_le_succ hlen))

/-- Under an acyclicity rank, every chain is duplicate-free, lies in
`folders`, and strictly increases the rank. -/
theorem chainOk_nodup (folders : List Folder) (rank : String → Nat)
    (hrank : ∀ f ∈ folders, ∀ p, f.parentId = some p → rank p < rank f.id) :
    ∀ (ch : List Folder) (root x : String), chainOk folders root ch x →
      ch.Nodup ∧ (∀ f ∈ ch, f ∈ folders) ∧ (∀ f ∈ ch, rank root < rank f.id) := by
  intro ch
  induction ch with
  | nil =>
    intro root x hch
    exact absurd hch id
  | cons f rest ih =>
    intro root x hch
    obtain ⟨hfmem, hfparent, hrest⟩ := hch
    have hrootf : rank root < rank f.id := hrank f hfmem root hfparent
    rcases hrest with ⟨hnil, _⟩ | hchain
    · subst hnil
      refine ⟨List.nodup_cons.mpr ⟨by simp, List.nodup_nil⟩, ?_, ?_⟩
      · intro g hg
        rw [List.mem_singleton.mp hg]
        exact hfmem
      · intro g hg
        rw [List.mem_singleton.mp hg]
        exact hrootf
    · obtain ⟨hnd, hsub, hlt⟩ := ih f.id x hchain
      refine ⟨List.nodup_cons.mpr ⟨?_, hnd⟩, ?_, ?_⟩
      · intro hmem
        exact absurd (hlt f hmem) (lt_irrefl _)
      · intro g hg
        rcases List.mem_cons.mp hg with h | h
        · exact h ▸ hfmem
        · exact hsub g h
      · intro g hg
        rcases List.mem_cons.mp hg with h | h
        · exact h ▸ hrootf
        · exact lt_trans hrootf (hlt g h)

/-- A strict descendant is the id of some folder in the collection. -/
theorem isDescendant_exists_folder (folders : List Folder) :
    ∀ (ch : List Folder) (root x : String), chainOk folders root ch x →
      ∃ f ∈ folders, f.id = x := by
  intro ch
  induction ch with
  | nil =>
    intro root x hch
    exact absurd hch id
  | cons f rest ih =>
    intro root x hch
    obtain ⟨hfmem, _, hrest⟩ := hch
    rcases hrest with ⟨_, hfx⟩ | hchain
    · exact ⟨f, hfmem, hfx⟩
    · exact ih f.id x hchain

/-- With an acyclicity rank, fuel `folders.length` reaches every
descendant. -/
theorem getDescendantFolderIds_complete_full (folders : List Folder)
    (rank : String → Nat)
    (hrank : ∀ f ∈ folders, ∀ p, f.parentId = some p → rank p < rank f.id)
    (root x : String) (h : IsDescendant folders root x) :
    x ∈ getDescendantFolderIds folders folders.length root := by
  obtain ⟨ch, hch⟩ := h
  obtain ⟨hnd, hsub, _⟩ := chainOk_nodup folders rank hrank ch root x hch
  have hlen : ch.length ≤ folders.length :=
    (List.subperm_of_subset hnd hsub).length_le
  exact getDescendantFolderIds_complete folders ch root x folders.length hch hlen

/-- Membership in the delete list computed by `deleteFolder` is exactly
membership in the subtree. -/
theorem deleteList_iff_inSubtree (folders : List Folder) (rank : String → Nat)
    (hrank : ∀ f ∈ folders, ∀ p, f.parentId = some p → rank p < rank f.id)
    (root fid : String) :
    fid ∈ getDescendantFolderIds folders folders.length root ++ [root] ↔
      InSubtree folders root fid := by
  constructor
  · intro h
    rcases List.mem_append.mp h with h | h
    · exact Or.inr (getDescendantFolderIds_sound folders _ root fid h)
    · exact Or.inl (List.mem_singleton.mp h)
  · intro h
    rcases h with h | h
    · exact List.mem_append.mpr (Or.inr (h ▸ List.mem_singleton_self _))
    · exact List.mem_append.mpr
        (Or.inl (getDescendantFolderIds_complete_full folders rank hrank root fid h))

theorem mget_mdel_none {α : Type} (m : List (String × α)) (k k2 : String)
    (h : mget m k = none) : mget (mdel m k2) k = none := by
  by_cases hk : k = k2
  · subst hk
    exact mget_mdel_self m k
  · rw [mget_mdel_ne m k2 k hk]
    exact h

theorem mget_foldl_mdel_none (l : List NoteR) : ∀ (m : List (String × NoteR)) (k : String),
    mget m k = none → mget (l.foldl (fun m n => mdel m n.id) m) k = none := by
  induction l with
  | nil =>
    intro m k h
    exact h
  | cons n rest ih =>
    intro m k h
    exact ih _ k (mget_mdel_none m k n.id h)

theorem mget_foldl_mdel_of_mem (l : List NoteR) : ∀ (m : List (String × NoteR)) (n : NoteR),
    n ∈ l → mget (l.foldl (fun m n => mdel m n.id) m) n.id = none := by
  induction l with
  | nil =>
    intro m n h
    simp at h
  | cons x rest ih =>
    intro m n h
    rcases List.mem_cons.mp h with h | h
    · subst h
      exact mget_foldl_mdel_none rest _ _ (mget_mdel_self m n.id)
    · exact ih _ n h

/-- The delete loop never touches `data.folders`, `data.notes` or the active
selection. -/
theorem deleteFold_fields (ids : List String) : ∀ (acc : CacheState),
    ((ids.foldl deleteFolderStep acc).folders = acc.folders ∧
     (ids.foldl deleteFolderStep acc).notes = acc.notes) ∧
    ((ids.foldl deleteFolderStep acc).activeFolderId = acc.activeFolderId ∧
     (ids.foldl deleteFolderStep acc).activeNoteId = acc.activeNoteId) := by
  induction ids with
  | nil =>
    intro acc
    exact ⟨⟨rfl, rfl⟩, rfl, rfl⟩
  | cons f rest ih =>
    intro acc
    rw [List.foldl_cons]
    exact ih (deleteFolderStep acc f)

/-- Absent map entries stay absent across the delete loop. -/
theorem deleteFold_none (ids : List String) : ∀ (acc : CacheState) (k : String),
    (mget acc.foldersById k = none →
      mget (ids.foldl deleteFolderStep acc).foldersById k = none) ∧
    (mget acc.notesByFolderId k = none →
      mget (ids.foldl deleteFolderStep acc).notesByFolderId k = none) ∧
    (mget acc.notesCountByFolder k = none →
      mget (ids.foldl deleteFolderStep acc).notesCountByFolder k = none) ∧
    (mget acc.notesById k = none →
      mget (ids.foldl deleteFolderStep acc).notesById k = none) := by
  induction ids with
  | nil =>
    intro acc k
    exact ⟨id, id, id, id⟩
  | cons f rest ih =>
    intro acc k
    rw [List.foldl_cons]
    obtain ⟨i1, i2, i3, i4⟩ := ih (deleteFolderStep acc f) k
    refine ⟨fun h => i1 ?_, fun h => i2 ?_, fun h => i3 ?_, fun h => i4 ?_⟩
    · exact mget_mdel_none _ _ _ h
    · exact mget_mdel_none _ _ _ h
    · exact mget_mdel_none _ _ _ h
    · exact mget_foldl_mdel_none _ _ _ h

/-- Every folder id handed to the delete loop is removed from `foldersById`,
`notesByFolderId` and `notesCountByFolder`. -/
theorem deleteFold_keys (ids : List String) : ∀ (acc : CacheState) (k : String), k ∈ ids →
    mget (ids.foldl deleteFolderStep acc).foldersById k = none ∧
    mget (ids.foldl deleteFolderStep acc).notesByFolderId k = none ∧
    mget (ids.foldl deleteFolderStep acc).notesCountByFolder k = none := by
  induction ids with
  | nil =>
    intro acc k h
    simp at h
  | cons f rest ih =>
    intro acc k hk
    rw [List.foldl_cons]
    by_cases hkf : k = f
    · subst hkf
      obtain ⟨p1, p2, p3, _⟩ := deleteFold_none rest (deleteFolderStep acc k) k
      exact ⟨p1 (mget_mdel_self _ _), p2 (mget_mdel_self _ _), p3 (mget_mdel_self _ _)⟩
    · rcases List.mem_cons.mp hk with h | h
      · exact absurd h hkf
      · exact ih (deleteFolderStep acc f) k h

/-- A note whose folder id is in the delete list is removed from `notesById`,
provided the folder's `notesByFolderId` entry (still) lists it — or it is
already gone. -/
theorem deleteFold_notesById (ids : List String) :
    ∀ (acc : CacheState) (fid : String) (n : NoteR), fid ∈ ids →
    ((∃ l, mget acc.notesByFolderId fid = some l ∧ n ∈ l) ∨
      mget acc.notesById n.id = none) →
    mget (ids.foldl deleteFolderStep acc).notesById n.id = none := by
  induction ids with
  | nil =>
    intro acc fid n h _
    simp at h
  | cons f rest ih =>
    intro acc fid n hfid hdis
    rw [List.foldl_cons]
    by_cases hkf : fid = f
    · subst hkf
      rcases hdis with ⟨l, hl, hn⟩ | hnone
      · have hstep : mget (deleteFolderStep acc fid).notesById n.id = none := by
          show mget (((mget acc.notesByFolderId fid).getD []).foldl
            (fun m n => mdel m n.id) acc.notesById) n.id = none
          rw [hl]
          exact mget_foldl_mdel_of_mem l acc.notesById n hn
        exact (deleteFold_none rest (deleteFolderStep acc fid) n.id).2.2.2 hstep
      · exact (deleteFold_none rest (deleteFolderStep acc fid) n.id).2.2.2
          (mget_foldl_mdel_none _ _ _ hnone)
    · have hfr : fid ∈ rest := by
        rcases List.mem_cons.mp hfid with h | h
        · exact absurd h hkf
        · exact h
      apply ih (deleteFolderStep acc f) fid n hfr
      rcases hdis with ⟨l, hl, hn⟩ | hnone
      · left
        refine ⟨l, ?_, hn⟩
        show mget (mdel acc.notesByFolderId f) fid = some l
        rw [mget_mdel_ne _ _ _ hkf]
        exact hl
      · right
        exact mget_foldl_mdel_none _ _ _ hnone

/-- C7: deleting folder `F` removes, in one cache operation, `F`, every
descendant folder, and every note of the subtree from `data` and the
id-indexes; every folder and note outside the subtree survives; no surviving
note references a deleted folder; and when the active folder lies inside the
deleted subtree, both the active folder and the active note fall back to
none. -/
theorem deleteFolder_cascades (s : CacheState) (id : String) (rank : String → Nat)
    (hrank : ∀ f ∈ s.folders, ∀ p, f.parentId = some p → rank p < rank f.id)
    (hroot : ∃ f ∈ s.folders, f.id = id)
    (hcons : IndexesConsistent s) :
    (∀ f : Folder, f ∈ (deleteFolder s id).folders ↔
        f ∈ s.folders ∧ ¬ InSubtree s.folders id f.id) ∧
    (∀ n : NoteR, n ∈ (deleteFolder s id).notes ↔
        n ∈ s.notes ∧ ¬ InSubtree s.folders id n.folderId) ∧
    (∀ fid : String, InSubtree s.folders id fid →
        mget (deleteFolder s id).foldersById fid = none ∧
        mget (deleteFolder s id).notesByFolderId fid = none) ∧
    (∀ n ∈ s.notes, InSubtree s.folders id n.folderId →
        mget (deleteFolder s id).notesById n.id = none) ∧
    (∀ a, s.activeFolderId = some a → InSubtree s.folders id a →
        (deleteFolder s id).activeFolderId = none ∧
        (deleteFolder s id).activeNoteId = none) := by
  obtain ⟨hA, hB, _⟩ := hcons
  have hchar : ∀ fid, (fid ∈ getDescendantFolderIds s.folders s.folders.length id ++ [id])
      ↔ InSubtree s.folders id fid :=
    fun fid => deleteList_iff_inSubtree s.folders rank hrank id fid
  set ids := getDescendantFolderIds s.folders s.folders.length id ++ [id] with hids
  have hcontains : ∀ fid : String, (ids.contains fid = true) ↔ InSubtree s.folders id fid := by
    intro fid
    rw [← hchar fid]
    exact ⟨fun h => List.elem_iff.mp h, fun h => List.elem_iff.mpr h⟩
  set s1 := ids.foldl deleteFolderStep s with hs1
  set s2 : CacheState := { s1 with
    folders := s1.folders.filter (fun f => !(ids.contains f.id)),
    notes := s1.notes.filter (fun n => !(ids.contains n.folderId)) } with hs2
  have hresult : deleteFolder s id = (match s2.activeFolderId with
      | some a =>
        if ids.contains a then { s2 with activeFolderId := none, activeNoteId := none } else s2
      | none => s2) := rfl
  have hfields := deleteFold_fields ids s
  have hproj : (deleteFolder s id).folders = s2.folders ∧
      (deleteFolder s id).notes = s2.notes ∧
      (deleteFolder s id).foldersById = s2.foldersById ∧
      (deleteFolder s id).notesByFolderId = s2.notesByFolderId ∧
      (deleteFolder s id).notesById = s2.notesById := by
    rw [hresult]
    cases hact : s2.activeFolderId with
    | none => exact ⟨rfl, rfl, rfl, rfl, rfl⟩
    | some a =>
      by_cases hc : ids.contains a = true
      · simp only [if_pos hc]
        exact ⟨trivial, trivial, trivial, trivial, trivial⟩
      · simp only [if_neg hc]
        exact ⟨trivial, trivial, trivial, trivial, trivial⟩
  refine ⟨?_, ?_, ?_, ?_, ?_⟩
  · intro f
    rw [hproj.1]
    have h1 : s2.folders = s.folders.filter (fun f => !(ids.contains f.id)) := by
      rw [hs2]
      simp only []
      rw [hfields.1.1]
    rw [h1, List.mem_filter]
    constructor
    · rintro ⟨hmem, hneg⟩
      rw [Bool.not_eq_true'] at hneg
      refine ⟨hmem, fun hin => ?_⟩
      rw [(hcontains f.id).mpr hin] at hneg
      exact Bool.noConfusion hneg
    · rintro ⟨hmem, hnin⟩
      refine ⟨hmem, ?_⟩
      rw [Bool.not_eq_true']
      cases hcc : ids.contains f.id with
      | false => rfl
      | true => exact absurd ((hcontains f.id).mp hcc) hnin
  · intro n
    rw [hproj.2.1]
    have h1 : s2.notes = s.notes.filter (fun n => !(ids.contains n.folderId)) := by
      rw [hs2]
      simp only []
      rw [hfields.1.2]
    rw [h1, List.mem_filter]
    constructor
    · rintro ⟨hmem, hneg⟩
      rw [Bool.not_eq_true'] at hneg
      refine ⟨hmem, fun hin => ?_⟩
      rw [(hcontains n.folderId).mpr hin] at hneg
      exact Bool.noConfusion hneg
    · rintro ⟨hmem, hnin⟩
      refine ⟨hmem, ?_⟩
      rw [Bool.not_eq_true']
      cases hcc : ids.contains n.folderId with
      | false => rfl
      | true => exact absurd ((hcontains n.folderId).mp hcc) hnin
  · intro fid hin
    have hmem : fid ∈ ids := (hchar fid).mpr hin
    have hkeys := deleteFold_keys ids s fid hmem
    rw [hproj.2.2.1, hproj.2.2.2.1]
    exact ⟨hkeys.1, hkeys.2.1⟩
  · intro n hn hin
    have hfidmem : n.folderId ∈ ids := (hchar n.folderId).mpr hin
    have hfolder : ∃ f ∈ s.folders, f.id = n.folderId := by
      rcases hin with h | h
      · rw [h]
        exact hroot
      · obtain ⟨ch, hch⟩ := h
        exact isDescendant_exists_folder s.folders ch id n.folderId hch
    obtain ⟨f, hfmem, hfid⟩ := hfolder
    have hsome := hB f hfmem
    cases hl : mget s.notesByFolderId f.id with
    | none =>
      rw [hl] at hsome
      simp at hsome
    | some l =>
      have hlval : l = s.notes.filter (fun m => m.folderId == f.id) :=
        hA (f.id, l) (mget_mem _ _ _ hl)
      have hnl : n ∈ l := by
        rw [hlval]
        exact List.mem_filter.mpr ⟨hn, by simp [hfid]⟩
      rw [hproj.2.2.2.2]
      apply deleteFold_notesById ids s n.folderId n hfidmem
      left
      refine ⟨l, ?_, hnl⟩
      rw [← hfid]
      exact hl
  · intro a ha hin
    have hact2 : s2.activeFolderId = some a := by
      rw [hs2]
      simp only []
      rw [hfields.2.1]
      exact ha
    rw [hresult, hact2]
    simp only [if_pos ((hcontains a).mpr hin)]
    exact ⟨by simp, by simp⟩

/-- C7 witness: deleting `F` (children `F1`, `F2`, one note each, active
selection inside the subtree) in the concrete cache `demoCache`, with
`String.length` as the acyclicity rank. -/
theorem deleteFolder_cascades_witness :
    ((∃ f ∈ demoCache.folders, f.id = "F") ∧ IndexesConsistent demoCache) ∧
    ((∀ f : Folder, f ∈ (deleteFolder demoCache "F").folders ↔
        f ∈ demoCache.folders ∧ ¬ InSubtree demoCache.folders "F" f.id) ∧
    (∀ n : NoteR, n ∈ (deleteFolder demoCache "F").notes ↔
        n ∈ demoCache.notes ∧ ¬ InSubtree demoCache.folders "F" n.folderId) ∧
    (∀ fid : String, InSubtree demoCache.folders "F" fid →
        mget (deleteFolder demoCache "F").foldersById fid = none ∧
        mget (deleteFolder demoCache "F").notesByFolderId fid = none) ∧
    (∀ n ∈ demoCache.notes, InSubtree demoCache.folders "F" n.folderId →
        mget (deleteFolder demoCache "F").notesById n.id = none) ∧
    (∀ a, demoCache.activeFolderId = some a → InSubtree demoCache.folders "F" a →
        (deleteFolder demoCache "F").activeFolderId = none ∧
        (deleteFolder demoCache "F").activeNoteId = none)) :=
  ⟨⟨by decide, by unfold IndexesConsistent; exact ⟨by decide, by decide, by decide⟩⟩,
    deleteFolder_cascades demoCache "F" String.length
      (by
        intro f hf p hp
        simp only [demoCache, demoFolders, List.mem_cons, List.not_mem_nil, or_false] at hf
        rcases hf with rfl | rfl | rfl | rfl
        · simp at hp
        · obtain rfl : "F" = p := by injection hp
          decide
        · obtain rfl : "F" = p := by injection hp
          decide
        · simp at hp)
      (by decide) (by unfold IndexesConsistent; exact ⟨by decide, by decide, by decide⟩)⟩

/-! ## Bridge resolution lemmas (claims C8, C9) -/

/-- C8: bridge command resolution is a strict ordered cascade — whatever
candidate class is chosen is available, and no earlier class in the order
(env override, preference binary, installed-app bridge locations, installed
app in `--bridge-cli` mode, dev-tree debug build, build-from-source) is
available; resolution fails only when no class is available at all. -/
theorem resolveBridgeCommand_strict_order (e : BridgeEnv) :
    (∀ r, resolveBridgeCommand e = .ok r →
      (availList e).getD (sourceIdx r.source) false = true ∧
      ∀ j, j < sourceIdx r.source → (availList e).getD j false = false) ∧
    (∀ msg, resolveBridgeCommand e = .error msg →
      ∀ j, j < 6 → (availList e).getD j false = false) := by
  unfold resolveBridgeCommand
  cases h0 : e.anoteBridgeBin.filter e.pathExists with
  | some p =>
    refine ⟨?_, fun msg hmsg => Except.noConfusion hmsg⟩
    intro r hr
    injection hr with h
    subst h
    refine ⟨by simp [availList, sourceIdx, h0], ?_⟩
    intro j hj
    simp only [sourceIdx] at hj
    omega
  | none =>
  cases h1 : e.bridgeBinaryPath.filter e.pathExists with
  | some p =>
    refine ⟨?_, fun msg hmsg => Except.noConfusion hmsg⟩
    intro r hr
    injection hr with h
    subst h
    refine ⟨by simp [availList, sourceIdx, h1], ?_⟩
    intro j hj
    simp only [sourceIdx] at hj
    interval_cases j
    simp [availList, h0]
  | none =>
  cases h2 : (appBridgeCandidates e).find? e.pathExists with
  | some p =>
    refine ⟨?_, fun msg hmsg => Except.noConfusion hmsg⟩
    intro r hr
    injection hr with h
    subst h
    refine ⟨by simp [availList, sourceIdx, h2], ?_⟩
    intro j hj
    simp only [sourceIdx] at hj
    interval_cases j <;> simp [availList, h0, h1]
  | none =>
  cases h3 : (appMainCandidates e).find? e.pathExists with
  | some p =>
    refine ⟨?_, fun msg hmsg => Except.noConfusion hmsg⟩
    intro r hr
    injection hr with h
    subst h
    refine ⟨by simp [availList, sourceIdx, h3], ?_⟩
    intro j hj
    simp only [sourceIdx] at hj
    interval_cases j <;> simp [availList, h0, h1, h2]
  | none =>
  cases h4 : (localBinCandidates e).find? e.pathExists with
  | some p =>
    refine ⟨?_, fun msg hmsg => Except.noConfusion hmsg⟩
    intro r hr
    injection hr with h
    subst h
    refine ⟨by simp [availList, sourceIdx, h4], ?_⟩
    intro j hj
    simp only [sourceIdx] at hj
    interval_cases j <;> simp [availList, h0, h1, h2, h3]
  | none =>
  cases h5 : (cargoManifestCandidates e).find? e.pathExists with
  | some manifest =>
    refine ⟨?_, fun msg hmsg => Except.noConfusion hmsg⟩
    intro r hr
    injection hr with h
    subst h
    refine ⟨by simp [availList, sourceIdx, h5], ?_⟩
    intro j hj
    simp only [sourceIdx] at hj
    interval_cases j <;> simp [availList, h0, h1, h2, h3, h4]
  | none =>
    refine ⟨fun r hr => Except.noConfusion hr, ?_⟩
    intro msg hmsg j hj
    interval_cases j <;> simp [availList, h0, h1, h2, h3, h4, h5]

/-- C8 witness: in the concrete environment where only a discoverable
`Cargo.toml` exists, the chosen class (build-from-source, index 5) is
available and the five earlier classes are not. -/
theorem resolveBridgeCommand_strict_order_witness :
    (availList demoBridgeEnvCargo).getD
        (sourceIdx (ResolvedBridgeCommand.mk "cargo"
          ["run", "--quiet", "--manifest-path", "/r/src-tauri/Cargo.toml",
           "--bin", "anote_bridge"] .cargo).source) false = true ∧
    ∀ j, j < sourceIdx (ResolvedBridgeCommand.mk "cargo"
          ["run", "--quiet", "--manifest-path", "/r/src-tauri/Cargo.toml",
           "--bin", "anote_bridge"] .cargo).source →
      (availList demoBridgeEnvCargo).getD j false = false :=
  (resolveBridgeCommand_strict_order demoBridgeEnvCargo).1
    ⟨"cargo", ["run", "--quiet", "--manifest-path", "/r/src-tauri/Cargo.toml",
      "--bin", "anote_bridge"], .cargo⟩ rfl

/-- C9 (corrected): with no override configured (neither the environment
variable nor the preference binary) and no installed application present,
resolution falls through to the development-tree debug build; if that does
not exist either and no `Cargo.toml` is discoverable, the invocation fails
with the descriptive error directing the user to install/update the app or
set the override paths and naming the bridge log file — it does not
enumerate every candidate path tried, and when a manifest *is* discoverable
it falls back to build-from-source instead of failing (see the
counterexample `resolveBridgeCommand_cargo_fallback_not_failure`). -/
theorem resolveBridgeCommand_dev_tree_fallthrough (e : BridgeEnv)
    (henv : e.anoteBridgeBin = none)
    (hpref : e.bridgeBinaryPath = none)
    (happB : (appBridgeCandidates e).find? e.pathExists = none)
    (happM : (appMainCandidates e).find? e.pathExists = none) :
    (∀ p, (localBinCandidates e).find? e.pathExists = some p →
      resolveBridgeCommand e = .ok ⟨p, [], .localDebug⟩) ∧
    ((localBinCandidates e).find? e.pathExists = none →
      (cargoManifestCandidates e).find? e.pathExists = none →
      resolveBridgeCommand e = .error (bridgeResolutionErrorMsg e)) := by
  constructor
  · intro p hp
    unfold resolveBridgeCommand
    rw [henv, hpref, happB, happM, hp]
    rfl
  · intro hlocal hcargo
    unfold resolveBridgeCommand
    rw [henv, hpref, happB, happM, hlocal, hcargo]
    rfl

/-- C9 witness: the environment in which nothing exists satisfies all the
hypotheses, and resolution indeed fails with the descriptive message. -/
theorem resolveBridgeCommand_dev_tree_fallthrough_witness :
    demoBridgeEnvEmpty.anoteBridgeBin = none ∧
    demoBridgeEnvEmpty.bridgeBinaryPath = none ∧
    (appBridgeCandidates demoBridgeEnvEmpty).find? demoBridgeEnvEmpty.pathExists = none ∧
    (appMainCandidates demoBridgeEnvEmpty).find? demoBridgeEnvEmpty.pathExists = none ∧
    ((∀ p, (localBinCandidates demoBridgeEnvEmpty).find? demoBridgeEnvEmpty.pathExists = some p →
        resolveBridgeCommand demoBridgeEnvEmpty = .ok ⟨p, [], .localDebug⟩) ∧
      ((localBinCandidates demoBridgeEnvEmpty).find? demoBridgeEnvEmpty.pathExists = none →
        (cargoManifestCandidates demoBridgeEnvEmpty).find? demoBridgeEnvEmpty.pathExists = none →
        resolveBridgeCommand demoBridgeEnvEmpty = .error (bridgeResolutionErrorMsg demoBridgeEnvEmpty))) :=
  ⟨rfl, rfl, by decide, by decide,
    resolveBridgeCommand_dev_tree_fallthrough demoBridgeEnvEmpty rfl rfl
      (by decide) (by decide)⟩

/-- C9 counterexample: no override, no installed app, and the dev-tree debug
binary does not exist — but a `Cargo.toml` is discoverable, so the invocation
does *not* fail: it resolves to the `cargo run` build-from-source candidate,
contrary to the claim's "if that candidate also does not exist, the
invocation fails with a descriptive error naming all candidates tried". -/
theorem resolveBridgeCommand_cargo_fallback_not_failure :
    (localBinCandidates demoBridgeEnvCargo).find? demoBridgeEnvCargo.pathExists = none ∧
    resolveBridgeCommand demoBridgeEnvCargo
      = .ok ⟨"cargo", ["run", "--quiet", "--manifest-path", "/r/src-tauri/Cargo.toml",
          "--bin", "anote_bridge"], .cargo⟩ :=
  ⟨rfl, rfl⟩

end Anote
